import Mathlib

/-!
Verification of the hex-grid base-outline extractor (`apl_api/_hexgen.py`).

The module is embedded shallowly:

* Python floats become `ℝ`; `math.cos`, `math.sin`, `math.sqrt`,
  `math.radians` and `math.log10` become their exact real counterparts.
* Python exceptions become an `Except PyErr` result, with one constructor
  per Python exception class raised by the module (`ValueError`,
  `IndexError`, `AssertionError`, `RuntimeError`).
* `_connect_outlines` works on arbitrary hashable points in Python, so it
  is embedded generically over a type `α` with decidable equality.  Its
  two-element Python point sets (`set(t)` for an edge tuple `t`) are kept
  as ordered pairs whose set operations are spelled out on the
  corresponding `Finset`; the `active` set is a `Finset α`.
* Python `set` iteration order is unspecified; where the source iterates a
  set built from a list (`set(hexes)`), the embedding uses first-insertion
  order (`List.dedup`), and where it spills a two-element edge set into the
  polygon seed, the embedding uses the pair's own order.  No theorem below
  depends on these order choices except through the concrete traces they
  produce.
* Python `round` is round-half-to-even; it is embedded as `round`
  (half-up).  The two agree except at exact ties `x * 10 ^ d + 1 / 2 ∈ ℤ`,
  which do not occur at any input used below.
-/

/-- Python exception classes raised by `_hexgen.py`: `ValueError` for bad
arguments, `IndexError` for `pop` from an empty list, `AssertionError` for a
failed `assert`, and `RuntimeError` for a disjoint boundary. -/
inductive PyErr
  | valueError
  | indexError
  | assertionError
  | runtimeError
deriving DecidableEq

deriving instance DecidableEq for Except

section Stitcher

variable {α : Type} [DecidableEq α]

/-- The scan `for line in lines: if line.intersection(active): ...` of
`_connect_outlines` (`_hexgen.py` lines 162-164): find the first edge sharing
a point with `active`; return it together with the list with that edge removed
(`lines.remove(line)` removes the first occurrence, which is the found one). -/
def scanFirst (active : Finset α) : List (α × α) → Option ((α × α) × List (α × α))
  | [] => none
  | l :: ls =>
    if l.1 ∈ active ∨ l.2 ∈ active then some (l, ls)
    else
      match scanFirst active ls with
      | none => none
      | some (f, rest) => some (f, l :: rest)

/-- One iteration of the `while lines:` loop of `_connect_outlines`
(`_hexgen.py` lines 160-186).  Returns the updated `(lines, polygon, active)`
state, or the raised exception.  `diff` is `line.difference(active)`; the
`assert len(diff) == 1` is modelled by the `.assertionError` branch;
`new_element = diff.pop()` is computed as the edge endpoint not in `active`
(the unique element of `diff` when its card is 1); the symmetric difference
update is `(active \ pts) ∪ (pts \ active)`; `line.intersection({polygon[0]})`
is the test on `polygon.head?` (the polygon is never empty when this runs). -/
def stitchIter (lines : List (α × α)) (polygon : List α) (active : Finset α) :
    Except PyErr (List (α × α) × List α × Finset α) :=
  match scanFirst active lines with
  | none => .error .runtimeError
  | some (line, rest) =>
    let pts : Finset α := {line.1, line.2}
    let diff := pts \ active
    if diff = ∅ then .ok (rest, polygon, active)
    else if diff.card ≠ 1 then .error .assertionError
    else
      let new_element := if line.1 ∈ active then line.2 else line.1
      let active2 := (active \ pts) ∪ (pts \ active)
      let polygon2 :=
        if polygon.head? = some line.1 ∨ polygon.head? = some line.2 then
          new_element :: polygon
        else polygon ++ [new_element]
      .ok (rest, polygon2, active2)

/-- The `while lines:` loop of `_connect_outlines`: iterate `stitchIter`
until `lines` is exhausted (return the polygon) or an exception is raised. -/
def stitchRun (lines : List (α × α)) (polygon : List α) (active : Finset α) :
    Except PyErr (List α) :=
  if lines = [] then .ok polygon
  else
    match hit : stitchIter lines polygon active with
    | .error e => .error e
    | .ok (rest, p2, a2) => stitchRun rest p2 a2
termination_by lines.length
decreasing_by
  have hlen : ∀ (l : List (α × α)) f r, scanFirst active l = some (f, r) →
      r.length + 1 = l.length := by
    intro l
    induction l with
    | nil => intro f r h; simp [scanFirst] at h
    | cons x xs ih =>
      intro f r h
      rw [scanFirst] at h
      split at h
      · simp only [Option.some.injEq, Prod.mk.injEq] at h
        obtain ⟨h1, h2⟩ := h
        subst h2
        simp
      · split at h
        · simp at h
        · next f2 rest2 heq =>
          simp only [Option.some.injEq, Prod.mk.injEq] at h
          obtain ⟨h1, h2⟩ := h
          subst h2
          have := ih f2 rest2 heq
          simp only [List.length_cons]
          omega
  simp only [stitchIter] at hit
  split at hit
  · exact absurd hit (by simp)
  · next line rest2 hscan =>
    have hr := hlen _ _ _ hscan
    have hrest : rest = rest2 := by
      split at hit
      · simp only [Except.ok.injEq, Prod.mk.injEq] at hit
        exact hit.1.symm
      · split at hit
        · simp at hit
        · simp only [Except.ok.injEq, Prod.mk.injEq] at hit
          exact hit.1.symm
    subst hrest
    omega

/-- Fuelled version of `stitchRun`, structurally recursive so that concrete
runs reduce inside the kernel; `stitchRun_eq_fuel` below shows it agrees with
`stitchRun` whenever the fuel is at least the number of edges (each iteration
consumes exactly one edge, so the fuel branch is never reached). -/
def stitchFuel : ℕ → List (α × α) → List α → Finset α → Except PyErr (List α)
  | _, [], polygon, _ => .ok polygon
  | 0, _ :: _, _, _ => .error .runtimeError
  | n + 1, e :: es, polygon, active =>
    match stitchIter (e :: es) polygon active with
    | .error err => .error err
    | .ok (rest, p2, a2) => stitchFuel n rest p2 a2

/-- `_connect_outlines` (`_hexgen.py` lines 135-187), generic in the point
type.  `lines.pop()` takes the last edge; `polygon.extend(lines.pop())` seeds
the polygon with that edge's point set (one point if the two coincide, else
both in pair order); `active = set(polygon)`.  `pop` from an empty list is an
`IndexError`. -/
def _connect_outlines (outlines : List (α × α)) : Except PyErr (List α) :=
  match outlines.getLast? with
  | none => .error .indexError
  | some line =>
    let polygon := if line.1 = line.2 then [line.1] else [line.1, line.2]
    stitchRun outlines.dropLast polygon {line.1, line.2}

/-- The frontier invariant of the stitching loop: `active` is exactly the
two-element set of the polygon's first and last points, and those two points
are distinct. -/
def ActiveInv (polygon : List α) (active : Finset α) : Prop :=
  ∃ h l, polygon.head? = some h ∧ polygon.getLast? = some l ∧ h ≠ l ∧
    active = ({h, l} : Finset α)

end Stitcher

noncomputable section HexGeometry

/-- `math.radians`: degrees to radians. -/
def radians (x : ℝ) : ℝ := x * (Real.pi / 180)

/-- `_get_hex_corner` (`_hexgen.py` lines 190-215): corner `i` of the hexagon
with the given origin and radius, at angle `60°·i + 30°`; `ValueError` on
non-positive radius or an index outside `[0, 5]`. -/
def _get_hex_corner (origin : ℝ × ℝ) (radius : ℝ) (corner_idx : ℤ) :
    Except PyErr (ℝ × ℝ) :=
  if radius ≤ 0 then .error .valueError
  else if ¬(0 ≤ corner_idx ∧ corner_idx ≤ 5) then .error .valueError
  else
    let angle := radians ((60 * corner_idx + 30 : ℤ) : ℝ)
    .ok (origin.1 + radius * Real.cos angle, origin.2 + radius * Real.sin angle)

/-- `_get_hex_edge` (`_hexgen.py` lines 218-245): edge `i` runs from corner
`i - 1` (wrapping to 5 at `i = 0`) to corner `i`; same validation as
`_get_hex_corner`. -/
def _get_hex_edge (origin : ℝ × ℝ) (radius : ℝ) (edge_idx : ℤ) :
    Except PyErr ((ℝ × ℝ) × (ℝ × ℝ)) :=
  if radius ≤ 0 then .error .valueError
  else if ¬(0 ≤ edge_idx ∧ edge_idx ≤ 5) then .error .valueError
  else
    let start_idx := if edge_idx ≠ 0 then edge_idx - 1 else 5
    do
      let p1 ← _get_hex_corner origin radius start_idx
      let p2 ← _get_hex_corner origin radius edge_idx
      return (p1, p2)

/-- `_get_hex_neighbours` (`_hexgen.py` lines 248-268): the six potential
neighbours of a tile, in edge-index order: right, top right, top left, left,
bottom left, bottom right. -/
def _get_hex_neighbours (h : ℤ × ℤ) : List (ℤ × ℤ) :=
  [(h.1 + 1, h.2), (h.1, h.2 + 1), (h.1 - 1, h.2 + 1),
   (h.1 - 1, h.2), (h.1, h.2 - 1), (h.1 + 1, h.2 - 1)]

/-- `_radius_to_size` (`_hexgen.py` lines 303-322): width `√3 · r` and height
`2 · r` of a hexagon; `ValueError` on non-positive radius. -/
def _radius_to_size (radius : ℝ) : Except PyErr (ℝ × ℝ) :=
  if radius ≤ 0 then .error .valueError
  else .ok (Real.sqrt 3 * radius, 2 * radius)

/-- `_tile_to_point` (`_hexgen.py` lines 325-344): cartesian origin of a tile,
`x = width · (u + v · 0.5)`, `y = v · height · 0.75`; `ValueError` on
non-positive radius. -/
def _tile_to_point (tile : ℤ × ℤ) (radius : ℝ) : Except PyErr (ℝ × ℝ) :=
  if radius ≤ 0 then .error .valueError
  else do
    let wh ← _radius_to_size radius
    return (wh.1 * ((tile.1 : ℝ) + (tile.2 : ℝ) * 0.5), (tile.2 : ℝ) * wh.2 * 0.75)

/-- Python `int(...)` applied to a real: truncation toward zero. -/
def int_trunc (x : ℝ) : ℤ := if 0 ≤ x then ⌊x⌋ else -⌊-x⌋

/-- `digits = max(-int(math.log10(precision)), 0)` (`_hexgen.py` line 298),
as a natural number (the `max` with 0 makes it non-negative). -/
def _round_digits (precision : ℝ) : ℕ := (max (-(int_trunc (Real.logb 10 precision))) 0).toNat

/-- Python `round(x, digits)` for a non-negative digit count, on reals. -/
def round_to (x : ℝ) (digits : ℕ) : ℝ := (round (x * 10 ^ digits) : ℝ) / 10 ^ digits

/-- The default value of the `precision` parameter of `_get_hexes_outline`
(`_hexgen.py` line 272): `1e-12`. -/
def _outline_default_precision : ℝ := 1 / 10 ^ 12

/-- `_get_hexes_outline` (`_hexgen.py` lines 271-300): collect, for every
member tile, the edges facing a neighbour that is not a member, then round
every edge endpoint to `digits` decimal places.  `members = set(hexes)` is
embedded as `hexes.dedup` (first-insertion order); the comprehension
`[_get_hex_edge(...) for h in members for i, n in enumerate(...) if n not in
members]` is the `mapM` over the kept `(tile, edge index)` pairs, in the same
order, with the first raised exception propagating. -/
def _get_hexes_outline (hexes : List (ℤ × ℤ)) (radius : ℝ) (precision : ℝ) :
    Except PyErr (List ((ℝ × ℝ) × (ℝ × ℝ))) := do
  let members := hexes.dedup
  let pairs := members.flatMap (fun h =>
    (((_get_hex_neighbours h).enum).filter (fun p => p.2 ∉ members)).map
      (fun p => (h, (p.1 : ℤ))))
  let edges ← pairs.mapM (fun p => do
    let origin ← _tile_to_point p.1 radius
    _get_hex_edge origin radius p.2)
  let digits := _round_digits precision
  return edges.map (fun e =>
    ((round_to e.1.1 digits, round_to e.1.2 digits),
     (round_to e.2.1 digits, round_to e.2.2 digits)))

/-- Insert one `(base id, tile)` record into the grouping accumulator, the way
`base_tiles[base_id].append(...)` with a `KeyError` fallback does: append the
tile to an existing group, or add a new group at the end. -/
def add_record (acc : List (ℕ × List (ℤ × ℤ))) (b : ℕ) (t : ℤ × ℤ) :
    List (ℕ × List (ℤ × ℤ)) :=
  match acc with
  | [] => [(b, [t])]
  | g :: rest => if g.1 = b then (g.1, g.2 ++ [t]) :: rest else g :: add_record rest b t

/-- The grouping loop of `get_base_outlines` (`_hexgen.py` lines 86-92):
group the fetched records by base id; Python dicts preserve key insertion
order, so groups appear in first-seen order. -/
def group_records (records : List (ℕ × (ℤ × ℤ))) : List (ℕ × List (ℤ × ℤ)) :=
  records.foldl (fun acc r => add_record acc r.1 r.2) []

/-- `get_base_outlines` (`_hexgen.py` lines 65-100) minus the API fetch:
the per-continent records (base id, tile) are the input.  For each base, in
dict order, compute the boundary edges at display precision `1e-2` and stitch
them; any exception raised for a base propagates out of the loop. -/
def get_base_outlines (records : List (ℕ × (ℤ × ℤ))) (radius : ℝ) :
    Except PyErr (List (ℕ × List (ℝ × ℝ))) :=
  (group_records records).mapM (fun bt => do
    let outlines ← _get_hexes_outline bt.2 radius (1 / 100)
    let polygon ← _connect_outlines outlines
    return (bt.1, polygon))

/-- The point value that `_get_hex_corner` returns on valid arguments. -/
def hexCornerVal (origin : ℝ × ℝ) (radius : ℝ) (i : ℤ) : ℝ × ℝ :=
  (origin.1 + radius * Real.cos (radians ((60 * i + 30 : ℤ) : ℝ)),
   origin.2 + radius * Real.sin (radians ((60 * i + 30 : ℤ) : ℝ)))

/-- The point value that `_tile_to_point` returns on a positive radius. -/
def tileOrigin (tile : ℤ × ℤ) (radius : ℝ) : ℝ × ℝ :=
  (Real.sqrt 3 * radius * ((tile.1 : ℝ) + (tile.2 : ℝ) * 0.5),
   (tile.2 : ℝ) * (2 * radius) * 0.75)

/-- Round both coordinates of a point to `d` decimal places, as
`_get_hexes_outline` does to every emitted edge endpoint. -/
def roundPoint (p : ℝ × ℝ) (d : ℕ) : ℝ × ℝ := (round_to p.1 d, round_to p.2 d)

/-- Corner `i` of a tile's hexagon after `_get_hexes_outline`'s rounding. -/
def roundedCorner (t : ℤ × ℤ) (radius : ℝ) (prec : ℝ) (i : ℤ) : ℝ × ℝ :=
  roundPoint (hexCornerVal (tileOrigin t radius) radius i) (_round_digits prec)

end HexGeometry

/-- The corner labels of the six boundary edges of an isolated hexagon, in
emission order: edge `i` joins corner `(i - 1) % 6` to corner `i`. -/
def hexLabelEdges : List (Fin 6 × Fin 6) :=
  [(5, 0), (0, 1), (1, 2), (2, 3), (3, 4), (4, 5)]

/-- The per-base body of the `for base_id, hexes in base_tiles.items():` loop
of `get_base_outlines`: boundary edges at display precision, then stitching. -/
noncomputable def basePipeline (radius : ℝ) (bt : ℕ × List (ℤ × ℤ)) :
    Except PyErr (ℕ × List (ℝ × ℝ)) := do
  let outlines ← _get_hexes_outline bt.2 radius (1 / 100)
  let polygon ← _connect_outlines outlines
  return (bt.1, polygon)


section EdgeMultisets

variable {α : Type} [DecidableEq α]

/-- An edge pair viewed as an unordered pair of points. -/
def sym2OfPair (e : α × α) : Sym2 α := s(e.1, e.2)

/-- The unordered edges between consecutive points of a list. -/
def pathSyms : List α → List (Sym2 α)
  | a :: b :: t => s(a, b) :: pathSyms (b :: t)
  | _ => []

/-- The unordered edges of the closed cycle through the points of a list:
the consecutive edges plus the wraparound edge from the last point back to
the first. -/
def cycSyms (c : List α) : List (Sym2 α) :=
  match c with
  | [] => []
  | a :: t => pathSyms (a :: t) ++ [s(t.getLastD a, a)]

end EdgeMultisets

section GeometryBasics

/-- `_get_hex_corner` succeeds on valid arguments with the expected value. -/
theorem _get_hex_corner_ok (origin : ℝ × ℝ) (radius : ℝ) (i : ℤ)
    (hr : 0 < radius) (h0 : 0 ≤ i) (h5 : i ≤ 5) :
    _get_hex_corner origin radius i = .ok (hexCornerVal origin radius i) := by
  rw [_get_hex_corner, if_neg (not_le.mpr hr), if_neg (not_not_intro ⟨h0, h5⟩)]
  rfl

/-- `_radius_to_size` succeeds on a positive radius with the expected value. -/
theorem _radius_to_size_ok (radius : ℝ) (hr : 0 < radius) :
    _radius_to_size radius = .ok (Real.sqrt 3 * radius, 2 * radius) := by
  rw [_radius_to_size, if_neg (not_le.mpr hr)]

/-- `_tile_to_point` succeeds on a positive radius with the expected value. -/
theorem _tile_to_point_ok (tile : ℤ × ℤ) (radius : ℝ) (hr : 0 < radius) :
    _tile_to_point tile radius = .ok (tileOrigin tile radius) := by
  rw [_tile_to_point, if_neg (not_le.mpr hr), _radius_to_size, if_neg (not_le.mpr hr)]
  rfl

/-- `_get_hex_edge` succeeds on valid arguments, returning the corners at
index `(i - 1) % 6` and `i`. -/
theorem _get_hex_edge_ok (origin : ℝ × ℝ) (radius : ℝ) (i : ℤ)
    (hr : 0 < radius) (h0 : 0 ≤ i) (h5 : i ≤ 5) :
    _get_hex_edge origin radius i =
      .ok (hexCornerVal origin radius ((i - 1) % 6), hexCornerVal origin radius i) := by
  have hstart : (if i ≠ 0 then i - 1 else 5) = (i - 1) % 6 := by split <;> omega
  rw [_get_hex_edge, if_neg (not_le.mpr hr), if_neg (not_not_intro ⟨h0, h5⟩)]
  simp only [hstart]
  rw [_get_hex_corner_ok _ _ _ hr (by omega) (by omega), _get_hex_corner_ok _ _ _ hr h0 h5]
  rfl

end GeometryBasics

section GeometryClaims

/-- C7: for every origin, radius > 0 and index `i ∈ [0, 5]`, `_get_hex_corner`
returns `(origin.x + r·cos(60°·i + 30°), origin.y + r·sin(60°·i + 30°))`;
`_get_hex_edge` returns exactly the pair of corners at `(i - 1) % 6` and `i`;
and in particular the corner of radius 5, index 0 at the origin is
`(2.5·√3, 2.5)`. -/
theorem hex_corner_edge_spec :
    (∀ (origin : ℝ × ℝ) (radius : ℝ) (i : ℤ), 0 < radius → 0 ≤ i → i ≤ 5 →
      _get_hex_corner origin radius i =
        .ok (origin.1 + radius * Real.cos (radians ((60 * i + 30 : ℤ) : ℝ)),
             origin.2 + radius * Real.sin (radians ((60 * i + 30 : ℤ) : ℝ)))) ∧
    (∀ (origin : ℝ × ℝ) (radius : ℝ) (i : ℤ), 0 < radius → 0 ≤ i → i ≤ 5 →
      ∃ p q, _get_hex_corner origin radius ((i - 1) % 6) = .ok p ∧
        _get_hex_corner origin radius i = .ok q ∧
        _get_hex_edge origin radius i = .ok (p, q)) ∧
    _get_hex_corner (0, 0) 5 0 = .ok (2.5 * Real.sqrt 3, 2.5) := by
  refine ⟨?_, ?_, ?_⟩
  · intro origin radius i hr h0 h5
    exact _get_hex_corner_ok origin radius i hr h0 h5
  · intro origin radius i hr h0 h5
    exact ⟨_, _, _get_hex_corner_ok _ _ _ hr (by omega) (by omega),
      _get_hex_corner_ok _ _ _ hr h0 h5, _get_hex_edge_ok _ _ _ hr h0 h5⟩
  · rw [_get_hex_corner_ok _ _ _ (by norm_num) (by norm_num) (by norm_num)]
    have hangle : radians ((60 * (0 : ℤ) + 30 : ℤ) : ℝ) = Real.pi / 6 := by
      rw [radians]
      push_cast
      ring
    rw [hexCornerVal, hangle, Real.cos_pi_div_six, Real.sin_pi_div_six]
    norm_num
    ring

/-- C7 witness: the corner formula evaluated at origin `(0,0)`, radius 1,
index 2. -/
theorem hex_corner_edge_spec_witness :
    _get_hex_corner ((0 : ℝ), (0 : ℝ)) 1 2 =
      .ok ((0 : ℝ) + 1 * Real.cos (radians ((60 * (2 : ℤ) + 30 : ℤ) : ℝ)),
           (0 : ℝ) + 1 * Real.sin (radians ((60 * (2 : ℤ) + 30 : ℤ) : ℝ))) :=
  hex_corner_edge_spec.1 (0, 0) 1 2 (by norm_num) (by norm_num) (by norm_num)

/-- C8: for every tile and radius > 0, `_tile_to_point` returns
`(width · (u + v·0.5), v · height · 0.75)` with `(width, height) =
(√3·r, 2·r)` from `_radius_to_size`; in particular tiles `(0,0)`, `(1,0)` and
`(0,1)` at radius 1 map to `(0,0)`, `(√3, 0)` and `(√3/2, 1.5)`. -/
theorem tile_to_point_spec :
    (∀ (radius : ℝ), 0 < radius →
      _radius_to_size radius = .ok (Real.sqrt 3 * radius, 2 * radius)) ∧
    (∀ (tile : ℤ × ℤ) (radius : ℝ), 0 < radius →
      _tile_to_point tile radius =
        .ok (Real.sqrt 3 * radius * ((tile.1 : ℝ) + (tile.2 : ℝ) * 0.5),
             (tile.2 : ℝ) * (2 * radius) * 0.75)) ∧
    _tile_to_point (0, 0) 1 = .ok (0, 0) ∧
    _tile_to_point (1, 0) 1 = .ok (Real.sqrt 3, 0) ∧
    _tile_to_point (0, 1) 1 = .ok (Real.sqrt 3 / 2, 1.5) := by
  have h1 : (0 : ℝ) < 1 := one_pos
  refine ⟨fun radius hr => _radius_to_size_ok radius hr,
    fun tile radius hr => _tile_to_point_ok tile radius hr, ?_, ?_, ?_⟩
  · rw [_tile_to_point_ok _ _ h1, tileOrigin]
    norm_num
  · rw [_tile_to_point_ok _ _ h1, tileOrigin]
    norm_num
  · rw [_tile_to_point_ok _ _ h1, tileOrigin]
    norm_num
    ring

/-- C8 witness: the conversion formula evaluated at tile `(2, 3)`, radius 1. -/
theorem tile_to_point_spec_witness :
    _tile_to_point ((2 : ℤ), (3 : ℤ)) 1 =
      .ok (Real.sqrt 3 * 1 * (((2 : ℤ) : ℝ) + ((3 : ℤ) : ℝ) * 0.5),
           ((3 : ℤ) : ℝ) * (2 * 1) * 0.75) :=
  tile_to_point_spec.2.1 (2, 3) 1 (by norm_num)

/-- C9: `_get_hex_corner`, `_get_hex_edge`, `_radius_to_size` and
`_tile_to_point` raise `ValueError` exactly when the radius is non-positive
or (for the first two) the index lies outside `[0, 5]`, and return normally
on all other arguments. -/
theorem invalid_argument_iff :
    (∀ (o : ℝ × ℝ) (r : ℝ) (i : ℤ),
      (∃ p, _get_hex_corner o r i = .ok p) ↔ (0 < r ∧ 0 ≤ i ∧ i ≤ 5)) ∧
    (∀ (o : ℝ × ℝ) (r : ℝ) (i : ℤ),
      (_get_hex_corner o r i = .error .valueError) ↔ (r ≤ 0 ∨ i < 0 ∨ 5 < i)) ∧
    (∀ (o : ℝ × ℝ) (r : ℝ) (i : ℤ),
      (∃ e, _get_hex_edge o r i = .ok e) ↔ (0 < r ∧ 0 ≤ i ∧ i ≤ 5)) ∧
    (∀ (o : ℝ × ℝ) (r : ℝ) (i : ℤ),
      (_get_hex_edge o r i = .error .valueError) ↔ (r ≤ 0 ∨ i < 0 ∨ 5 < i)) ∧
    (∀ r : ℝ, (∃ s, _radius_to_size r = .ok s) ↔ 0 < r) ∧
    (∀ r : ℝ, (_radius_to_size r = .error .valueError) ↔ r ≤ 0) ∧
    (∀ (t : ℤ × ℤ) (r : ℝ), (∃ p, _tile_to_point t r = .ok p) ↔ 0 < r) ∧
    (∀ (t : ℤ × ℤ) (r : ℝ), (_tile_to_point t r = .error .valueError) ↔ r ≤ 0) := by
  have hcorner_err : ∀ (o : ℝ × ℝ) (r : ℝ) (i : ℤ), r ≤ 0 ∨ i < 0 ∨ 5 < i →
      _get_hex_corner o r i = .error .valueError := by
    intro o r i h
    rw [_get_hex_corner]
    rcases le_or_lt r 0 with hr | hr
    · rw [if_pos hr]
    · have hi : i < 0 ∨ 5 < i := by
        rcases h with h | h
        · linarith
        · exact h
      rw [if_neg (not_le.mpr hr), if_pos (by omega)]
  have hedge_err : ∀ (o : ℝ × ℝ) (r : ℝ) (i : ℤ), r ≤ 0 ∨ i < 0 ∨ 5 < i →
      _get_hex_edge o r i = .error .valueError := by
    intro o r i h
    rw [_get_hex_edge]
    rcases le_or_lt r 0 with hr | hr
    · rw [if_pos hr]
    · have hi : i < 0 ∨ 5 < i := by
        rcases h with h | h
        · linarith
        · exact h
      rw [if_neg (not_le.mpr hr), if_pos (by omega)]
  have hsize_err : ∀ r : ℝ, r ≤ 0 → _radius_to_size r = .error .valueError := by
    intro r hr
    rw [_radius_to_size, if_pos hr]
  have htile_err : ∀ (t : ℤ × ℤ) (r : ℝ), r ≤ 0 → _tile_to_point t r = .error .valueError := by
    intro t r hr
    rw [_tile_to_point, if_pos hr]
  refine ⟨?_, ?_, ?_, ?_, ?_, ?_, ?_, ?_⟩
  · intro o r i
    constructor
    · rintro ⟨p, hp⟩
      by_contra hc
      push_neg at hc
      rcases le_or_lt r 0 with hr | hr
      · rw [hcorner_err o r i (Or.inl hr)] at hp
        exact absurd hp (by simp)
      · have hi : i < 0 ∨ 5 < i := by
          by_cases h0 : 0 ≤ i
          · exact Or.inr (hc hr h0)
          · exact Or.inl (by omega)
        rw [hcorner_err o r i (Or.inr hi)] at hp
        exact absurd hp (by simp)
    · rintro ⟨hr, h0, h5⟩
      exact ⟨_, _get_hex_corner_ok o r i hr h0 h5⟩
  · intro o r i
    constructor
    · intro h
      by_contra hc
      push_neg at hc
      obtain ⟨hr, h0, h5⟩ := hc
      rw [_get_hex_corner_ok o r i hr (by omega) (by omega)] at h
      exact absurd h (by simp)
    · exact hcorner_err o r i
  · intro o r i
    constructor
    · rintro ⟨e, he⟩
      by_contra hc
      push_neg at hc
      rcases le_or_lt r 0 with hr | hr
      · rw [hedge_err o r i (Or.inl hr)] at he
        exact absurd he (by simp)
      · have hi : i < 0 ∨ 5 < i := by
          by_cases h0 : 0 ≤ i
          · exact Or.inr (hc hr h0)
          · exact Or.inl (by omega)
        rw [hedge_err o r i (Or.inr hi)] at he
        exact absurd he (by simp)
    · rintro ⟨hr, h0, h5⟩
      exact ⟨_, _get_hex_edge_ok o r i hr h0 h5⟩
  · intro o r i
    constructor
    · intro h
      by_contra hc
      push_neg at hc
      obtain ⟨hr, h0, h5⟩ := hc
      rw [_get_hex_edge_ok o r i hr (by omega) (by omega)] at h
      exact absurd h (by simp)
    · exact hedge_err o r i
  · intro r
    constructor
    · rintro ⟨s, hs⟩
      by_contra hc
      rw [hsize_err r (by linarith)] at hs
      exact absurd hs (by simp)
    · intro hr
      exact ⟨_, _radius_to_size_ok r hr⟩
  · intro r
    constructor
    · intro h
      by_contra hc
      rw [_radius_to_size_ok r (by linarith)] at h
      exact absurd h (by simp)
    · exact hsize_err r
  · intro t r
    constructor
    · rintro ⟨p, hp⟩
      by_contra hc
      rw [htile_err t r (by linarith)] at hp
      exact absurd hp (by simp)
    · intro hr
      exact ⟨_, _tile_to_point_ok t r hr⟩
  · intro t r
    constructor
    · intro h
      by_contra hc
      rw [_tile_to_point_ok t r (by linarith)] at h
      exact absurd h (by simp)
    · exact htile_err t r

end GeometryClaims

section StitcherBasics

variable {α : Type} [DecidableEq α]

/-- A scan that returns an edge found it satisfying the intersection test. -/
theorem scanFirst_some_pred (active : Finset α) :
    ∀ (l : List (α × α)) f rest, scanFirst active l = some (f, rest) →
      f.1 ∈ active ∨ f.2 ∈ active := by
  intro l
  induction l with
  | nil => intro f rest h; simp [scanFirst] at h
  | cons x xs ih =>
    intro f rest h
    rw [scanFirst] at h
    split at h
    · next hx =>
      simp only [Option.some.injEq, Prod.mk.injEq] at h
      exact h.1 ▸ hx
    · split at h
      · simp at h
      · next f2 rest2 heq =>
        simp only [Option.some.injEq, Prod.mk.injEq] at h
        exact h.1 ▸ ih f2 rest2 heq

/-- Removing the found edge is a permutation: the scanned list is a
permutation of the found edge consed onto the remainder. -/
theorem scanFirst_some_perm (active : Finset α) :
    ∀ (l : List (α × α)) f rest, scanFirst active l = some (f, rest) →
      l.Perm (f :: rest) := by
  intro l
  induction l with
  | nil => intro f rest h; simp [scanFirst] at h
  | cons x xs ih =>
    intro f rest h
    rw [scanFirst] at h
    split at h
    · simp only [Option.some.injEq, Prod.mk.injEq] at h
      rw [h.1, h.2]
    · split at h
      · simp at h
      · next f2 rest2 heq =>
        simp only [Option.some.injEq, Prod.mk.injEq] at h
        obtain ⟨h1, h2⟩ := h
        subst h1 h2
        exact ((ih f2 rest2 heq).cons x).trans (List.Perm.swap f2 x rest2)

/-- Edges other than the found one survive the removal. -/
theorem scanFirst_mem_rest (active : Finset α) :
    ∀ (l : List (α × α)) f rest, scanFirst active l = some (f, rest) →
      ∀ x ∈ l, x ≠ f → x ∈ rest := by
  intro l
  induction l with
  | nil => intro f rest h; simp [scanFirst] at h
  | cons y xs ih =>
    intro f rest h x hx hne
    rw [scanFirst] at h
    split at h
    · simp only [Option.some.injEq, Prod.mk.injEq] at h
      obtain ⟨h1, h2⟩ := h
      subst h1 h2
      rcases List.mem_cons.mp hx with h | h
      · exact absurd h hne
      · exact h
    · split at h
      · simp at h
      · next f2 rest2 heq =>
        simp only [Option.some.injEq, Prod.mk.injEq] at h
        obtain ⟨h1, h2⟩ := h
        subst h1 h2
        rcases List.mem_cons.mp hx with h | h
        · exact h ▸ List.mem_cons_self y rest2
        · exact List.mem_cons_of_mem y (ih f2 rest2 heq x h hne)

/-- If some edge of the list meets `active`, the scan finds one. -/
theorem scanFirst_isSome (active : Finset α) :
    ∀ (l : List (α × α)) e, e ∈ l → (e.1 ∈ active ∨ e.2 ∈ active) →
      ∃ f rest, scanFirst active l = some (f, rest) := by
  intro l
  induction l with
  | nil => intro e he _; simp at he
  | cons x xs ih =>
    intro e he hpred
    rw [scanFirst]
    split
    · exact ⟨x, xs, rfl⟩
    · next hx =>
      rcases List.mem_cons.mp he with h | h
      · exact absurd (h ▸ hpred) hx
      · obtain ⟨f, rest, hf⟩ := ih e h hpred
        rw [hf]
        exact ⟨f, x :: rest, rfl⟩

/-- `stitchRun` on an empty edge list returns the polygon. -/
theorem stitchRun_nil (polygon : List α) (active : Finset α) :
    stitchRun [] polygon active = .ok polygon := by
  rw [stitchRun]
  simp

/-- `stitchRun` takes the step computed by `stitchIter`. -/
theorem stitchRun_step (lines : List (α × α)) (polygon : List α) (active : Finset α)
    (rest : List (α × α)) (p2 : List α) (a2 : Finset α) (hne : lines ≠ [])
    (h : stitchIter lines polygon active = .ok (rest, p2, a2)) :
    stitchRun lines polygon active = stitchRun rest p2 a2 := by
  rw [stitchRun, if_neg hne]
  split
  · next e heq => rw [h] at heq; exact absurd heq (by simp)
  · next r2 q2 b2 heq =>
    rw [h] at heq
    simp only [Except.ok.injEq, Prod.mk.injEq] at heq
    rw [heq.1, heq.2.1, heq.2.2]

/-- `stitchRun` propagates the exception raised by `stitchIter`. -/
theorem stitchRun_error (lines : List (α × α)) (polygon : List α) (active : Finset α)
    (e : PyErr) (hne : lines ≠ []) (h : stitchIter lines polygon active = .error e) :
    stitchRun lines polygon active = .error e := by
  rw [stitchRun, if_neg hne]
  split
  · next e2 heq => rw [h] at heq; simp only [Except.error.injEq] at heq; rw [heq]
  · next r2 q2 b2 heq => rw [h] at heq; exact absurd heq (by simp)

end StitcherBasics

section AssertClaim

variable {α : Type} [DecidableEq α]

/-- The difference of a scanned edge from `active` has at most one element,
because the scan only returns edges sharing a point with `active`. -/
theorem scanned_diff_card_le (line : α × α) (active : Finset α)
    (hpred : line.1 ∈ active ∨ line.2 ∈ active) :
    (({line.1, line.2} : Finset α) \ active).card ≤ 1 := by
  rcases hpred with h | h
  · have hsub : ({line.1, line.2} : Finset α) \ active ⊆ {line.2} := by
      intro z hz
      simp only [Finset.mem_sdiff, Finset.mem_insert, Finset.mem_singleton] at hz
      rcases hz.1 with rfl | rfl
      · exact absurd h hz.2
      · simp
    simpa using Finset.card_le_card hsub
  · have hsub : ({line.1, line.2} : Finset α) \ active ⊆ {line.1} := by
      intro z hz
      simp only [Finset.mem_sdiff, Finset.mem_insert, Finset.mem_singleton] at hz
      rcases hz.1 with rfl | rfl
      · simp
      · exact absurd h hz.2
    simpa using Finset.card_le_card hsub

/-- One loop iteration can never raise the `assert len(diff) == 1` failure. -/
theorem stitchIter_ne_assert (lines : List (α × α)) (polygon : List α)
    (active : Finset α) : stitchIter lines polygon active ≠ .error .assertionError := by
  rcases hscan : scanFirst active lines with _ | ⟨line, rest⟩
  · simp [stitchIter, hscan]
  · have hpred := scanFirst_some_pred active lines line rest hscan
    have hcard := scanned_diff_card_le line active hpred
    simp only [stitchIter, hscan]
    split
    · simp
    · next hne =>
      split
      · next hc =>
        exfalso
        have h1 : 1 ≤ (({line.1, line.2} : Finset α) \ active).card :=
          Finset.card_pos.mpr (Finset.nonempty_iff_ne_empty.mpr hne)
        omega
      · simp

/-- `stitchIter` keeps exactly one fewer edge in the remaining list. -/
theorem stitchIter_ok_length (lines : List (α × α)) (polygon : List α)
    (active : Finset α) (rest : List (α × α)) (p2 : List α) (a2 : Finset α)
    (h : stitchIter lines polygon active = .ok (rest, p2, a2)) :
    rest.length + 1 = lines.length := by
  rcases hscan : scanFirst active lines with _ | ⟨line, r2⟩
  · simp [stitchIter, hscan] at h
  · have hlen := (scanFirst_some_perm active lines line r2 hscan).length_eq
    simp only [stitchIter, hscan] at h
    simp only [List.length_cons] at hlen
    split at h
    · simp only [Except.ok.injEq, Prod.mk.injEq] at h
      rw [← h.1]
      omega
    · split at h
      · simp at h
      · simp only [Except.ok.injEq, Prod.mk.injEq] at h
        rw [← h.1]
        omega

/-- The whole stitching loop can never raise an assertion failure. -/
theorem stitchRun_ne_assert :
    ∀ (n : ℕ) (lines : List (α × α)) (polygon : List α) (active : Finset α),
      lines.length ≤ n → stitchRun lines polygon active ≠ .error .assertionError := by
  intro n
  induction n with
  | zero =>
    intro lines p a hlen
    have hnil : lines = [] := List.length_eq_zero.mp (Nat.le_zero.mp hlen)
    subst hnil
    rw [stitchRun_nil]
    simp
  | succ n ih =>
    intro lines p a hlen
    by_cases hnil : lines = []
    · subst hnil
      rw [stitchRun_nil]
      simp
    · rcases hiter : stitchIter lines p a with e | ⟨rest, p2, a2⟩
      · rw [stitchRun_error _ _ _ _ hnil hiter]
        intro hcon
        simp only [Except.error.injEq] at hcon
        exact stitchIter_ne_assert lines p a (hcon ▸ hiter)
      · rw [stitchRun_step _ _ _ _ _ _ hnil hiter]
        apply ih
        have := stitchIter_ok_length _ _ _ _ _ _ hiter
        omega

/-- C10: in `_connect_outlines`, when every input edge is a set of exactly two
distinct points, the `assert len(diff) == 1` never fails: whenever a scanned
edge meets `active` and its difference from `active` is non-empty, that
difference is a singleton, so the algorithm never raises `AssertionError`. -/
theorem connect_outlines_no_assert :
    (∀ (line : α × α) (active : Finset α),
      (line.1 ∈ active ∨ line.2 ∈ active) → line.1 ≠ line.2 →
      ({line.1, line.2} : Finset α) \ active ≠ ∅ →
      (({line.1, line.2} : Finset α) \ active).card = 1) ∧
    (∀ outlines : List (α × α), (∀ e ∈ outlines, e.1 ≠ e.2) →
      _connect_outlines outlines ≠ .error .assertionError) := by
  constructor
  · intro line active hpred hne hdiff
    have h1 : 1 ≤ (({line.1, line.2} : Finset α) \ active).card :=
      Finset.card_pos.mpr (Finset.nonempty_iff_ne_empty.mpr hdiff)
    have h2 := scanned_diff_card_le line active hpred
    omega
  · intro outlines hdist
    rw [_connect_outlines]
    rcases hlast : outlines.getLast? with _ | e
    · simp
    · exact stitchRun_ne_assert outlines.dropLast.length _ _ _ (le_refl _)

/-- C10 witness: a concrete triangle never hits the assertion failure. -/
theorem connect_outlines_no_assert_witness :
    _connect_outlines [((0 : ℤ), 1), (1, 2), (2, 0)] ≠ .error .assertionError :=
  connect_outlines_no_assert.2 [((0 : ℤ), 1), (1, 2), (2, 0)] (by decide)

end AssertClaim

section ActiveInvClaim

variable {α : Type} [DecidableEq α]

/-- C6: the set `active` always equals the two-element set of the polygon's
first and last points: the seeding of `_connect_outlines` establishes this
(for a seed edge with two distinct points), and every `stitchIter` step —
prepend, append, or consuming the loop-closing edge — preserves it. -/
theorem stitch_active_endpoints_invariant :
    (∀ a b : α, a ≠ b → ActiveInv [a, b] ({a, b} : Finset α)) ∧
    (∀ (lines : List (α × α)) (polygon : List α) (active : Finset α)
        (rest : List (α × α)) (p2 : List α) (a2 : Finset α),
      ActiveInv polygon active →
      stitchIter lines polygon active = .ok (rest, p2, a2) → ActiveInv p2 a2) := by
  constructor
  · intro a b hab
    exact ⟨a, b, rfl, rfl, hab, rfl⟩
  · intro lines polygon active rest p2 a2 hinv hstep
    obtain ⟨h, l, hh, hl, hne, hact⟩ := hinv
    cases polygon with
    | nil => simp at hh
    | cons p t =>
    simp only [List.head?_cons, Option.some.injEq] at hh
    subst hh
    rcases hscan : scanFirst active lines with _ | ⟨line, res⟩
    · simp [stitchIter, hscan] at hstep
    · have hpred := scanFirst_some_pred active lines line res hscan
      obtain ⟨x, y⟩ := line
      simp only at hpred
      have hpmem : p ∈ active := by rw [hact]; exact Finset.mem_insert_self p {l}
      have hlmem : l ∈ active := by
        rw [hact]; exact Finset.mem_insert_of_mem (Finset.mem_singleton_self l)
      simp only [stitchIter, hscan] at hstep
      split at hstep
      · next hdiff =>
        simp only [Except.ok.injEq, Prod.mk.injEq] at hstep
        obtain ⟨-, hp2, ha2⟩ := hstep
        rw [← hp2, ← ha2]
        exact ⟨p, l, by simp, hl, hne, hact⟩
      · split at hstep
        · simp at hstep
        · next hdiff hcard =>
          simp only [Except.ok.injEq, Prod.mk.injEq] at hstep
          obtain ⟨-, hp2, ha2⟩ := hstep
          rw [← hp2, ← ha2]
          have hlast : ∀ w : α, ((p :: t) ++ [w]).getLast? = some w :=
            fun w => List.getLast?_concat _
          have hlast2 : ∀ w : α, (w :: p :: t).getLast? = (p :: t).getLast? :=
            fun w => by rw [List.getLast?_cons_cons]
          have hboth : x ∈ active → y ∈ active → ({x, y} : Finset α) \ active = ∅ := by
            intro hx hy
            rw [Finset.sdiff_eq_empty_iff_subset]
            intro z hz
            rcases Finset.mem_insert.mp hz with rfl | hz2
            · exact hx
            · rw [Finset.mem_singleton] at hz2
              rw [hz2]
              exact hy
          have hxor : (x ∈ active ∧ y ∉ active) ∨ (x ∉ active ∧ y ∈ active) := by
            rcases hpred with hx | hy
            · exact Or.inl ⟨hx, fun hy => hdiff (hboth hx hy)⟩
            · by_cases hx : x ∈ active
              · exact Or.inl ⟨hx, fun hy2 => hdiff (hboth hx hy2)⟩
              · exact Or.inr ⟨hx, hy⟩
          rcases hxor with ⟨hx, hy⟩ | ⟨hx, hy⟩
          · -- `x` is the matched endpoint, `y` the new point
            have hyp : y ≠ p := fun hcon => hy (hcon ▸ hpmem)
            have hyl : y ≠ l := fun hcon => hy (hcon ▸ hlmem)
            rw [if_pos hx]
            rcases Finset.mem_insert.mp (hact ▸ hx : x ∈ ({p, l} : Finset α)) with hxp | hxl
            · -- matched at the head: prepend `y`
              rw [if_pos (Or.inl (by simp [hxp.symm]))]
              refine ⟨y, l, by simp, by rw [hlast2]; exact hl, hyl, ?_⟩
              rw [hxp, hact]
              ext z
              simp only [Finset.mem_union, Finset.mem_sdiff, Finset.mem_insert,
                Finset.mem_singleton]
              constructor
              · rintro (⟨rfl | rfl, hz2⟩ | ⟨rfl | rfl, hz2⟩) <;> simp_all
              · rintro (rfl | rfl) <;>
                  simp [hne, Ne.symm hne, hyp, Ne.symm hyp, hyl, Ne.symm hyl]
            · rw [Finset.mem_singleton] at hxl
              -- matched at the tail: append `y`
              rw [if_neg (by
                simp only [List.head?_cons, Option.some.injEq]
                rintro (hcon | hcon)
                · exact hne (hcon.trans hxl)
                · exact hyp hcon.symm)]
              refine ⟨p, y, by simp, hlast y, Ne.symm hyp, ?_⟩
              rw [hxl, hact]
              ext z
              simp only [Finset.mem_union, Finset.mem_sdiff, Finset.mem_insert,
                Finset.mem_singleton]
              constructor
              · rintro (⟨rfl | rfl, hz2⟩ | ⟨rfl | rfl, hz2⟩) <;> simp_all
              · rintro (rfl | rfl) <;>
                  simp [hne, Ne.symm hne, hyp, Ne.symm hyp, hyl, Ne.symm hyl]
          · -- `y` is the matched endpoint, `x` the new point
            have hxp : x ≠ p := fun hcon => hx (hcon ▸ hpmem)
            have hxl : x ≠ l := fun hcon => hx (hcon ▸ hlmem)
            rw [if_neg hx]
            rcases Finset.mem_insert.mp (hact ▸ hy : y ∈ ({p, l} : Finset α)) with hyp | hyl
            · -- matched at the head: prepend `x`
              rw [if_pos (Or.inr (by simp [hyp.symm]))]
              refine ⟨x, l, by simp, by rw [hlast2]; exact hl, hxl, ?_⟩
              rw [hyp, hact]
              ext z
              simp only [Finset.mem_union, Finset.mem_sdiff, Finset.mem_insert,
                Finset.mem_singleton]
              constructor
              · rintro (⟨rfl | rfl, hz2⟩ | ⟨rfl | rfl, hz2⟩) <;> simp_all
              · rintro (rfl | rfl) <;>
                  simp [hne, Ne.symm hne, hxp, Ne.symm hxp, hxl, Ne.symm hxl]
            · rw [Finset.mem_singleton] at hyl
              -- matched at the tail: append `x`
              rw [if_neg (by
                simp only [List.head?_cons, Option.some.injEq]
                rintro (hcon | hcon)
                · exact hxp hcon.symm
                · exact hne (hcon.trans hyl))]
              refine ⟨p, x, by simp, hlast x, Ne.symm hxp, ?_⟩
              rw [hyl, hact]
              ext z
              simp only [Finset.mem_union, Finset.mem_sdiff, Finset.mem_insert,
                Finset.mem_singleton]
              constructor
              · rintro (⟨rfl | rfl, hz2⟩ | ⟨rfl | rfl, hz2⟩) <;> simp_all
              · rintro (rfl | rfl) <;>
                  simp [hne, Ne.symm hne, hxp, Ne.symm hxp, hxl, Ne.symm hxl]

/-- C6 witness: the invariant holds for the seed `[0, 1]` and is preserved by
a concrete prepend step consuming the edge `(1, 2)`. -/
theorem stitch_active_endpoints_invariant_witness :
    ActiveInv [(0 : ℤ), 1] ({0, 1} : Finset ℤ) ∧
      ActiveInv [(0 : ℤ), 1, 2] ({0, 2} : Finset ℤ) := by
  constructor
  · exact stitch_active_endpoints_invariant.1 0 1 (by decide)
  · refine stitch_active_endpoints_invariant.2 [((1 : ℤ), 2)] [0, 1] {0, 1} [] _ _
      (⟨0, 1, rfl, rfl, by decide, rfl⟩) ?_
    decide

end ActiveInvClaim

section FuelEquivalence

variable {α : Type} [DecidableEq α]

/-- With enough fuel, `stitchFuel` computes exactly `stitchRun`. -/
theorem stitchRun_eq_fuel :
    ∀ (n : ℕ) (lines : List (α × α)) (polygon : List α) (active : Finset α),
      lines.length ≤ n → stitchRun lines polygon active = stitchFuel n lines polygon active := by
  intro n
  induction n with
  | zero =>
    intro lines p a hlen
    have hnil : lines = [] := List.length_eq_zero.mp (Nat.le_zero.mp hlen)
    subst hnil
    rw [stitchRun_nil, stitchFuel]
  | succ n ih =>
    intro lines p a hlen
    cases lines with
    | nil => rw [stitchRun_nil, stitchFuel]
    | cons e es =>
      rw [stitchFuel]
      rcases hiter : stitchIter (e :: es) p a with err | ⟨rest, p2, a2⟩
      · rw [stitchRun_error _ _ _ _ (List.cons_ne_nil e es) hiter]
      · rw [stitchRun_step _ _ _ _ _ _ (List.cons_ne_nil e es) hiter]
        have hlen2 := stitchIter_ok_length _ _ _ _ _ _ hiter
        apply ih
        simp only [List.length_cons] at hlen2 hlen
        omega

/-- Evaluation form of `_connect_outlines` through the fuelled loop. -/
theorem connect_outlines_eval (outlines : List (α × α)) :
    _connect_outlines outlines =
      match outlines.getLast? with
      | none => .error .indexError
      | some line =>
        stitchFuel outlines.dropLast.length outlines.dropLast
          (if line.1 = line.2 then [line.1] else [line.1, line.2]) {line.1, line.2} := by
  rw [_connect_outlines]
  rcases hlast : outlines.getLast? with _ | line
  · rfl
  · exact stitchRun_eq_fuel _ _ _ _ (le_refl _)

end FuelEquivalence

section DisjointClaims

variable {α : Type} [DecidableEq α]

/-- C3 counterexample: the edge multiset
`{{0,1}, {1,2}, {2,0}, {0,3}}` — a triangle plus a dangling edge attached at
point 0 — is not a single closed loop, yet `_connect_outlines` raises no
`DisjointBoundary` error: it returns normally, and its output even visits
point 0 twice, an incorrect polygon. -/
theorem connect_outlines_non_loop_returns_ok :
    _connect_outlines [((0 : ℤ), 1), (1, 2), (2, 0), (0, 3)] = .ok [0, 2, 1, 0, 3] ∧
      ([(0 : ℤ), 2, 1, 0, 3].count 0 = 2) := by
  refine ⟨?_, by decide⟩
  rw [connect_outlines_eval]
  decide

end DisjointClaims

section SplitLemmas

variable {α : Type} [DecidableEq α]

/-- After a successful scan, one iteration either consumes the loop-closing
edge (both endpoints already active, state otherwise unchanged) or extends the
polygon by the edge's one new point. -/
theorem stitchIter_cases (lines : List (α × α)) (polygon : List α)
    (active : Finset α) (line : α × α) (res : List (α × α))
    (hscan : scanFirst active lines = some (line, res)) :
    (({line.1, line.2} : Finset α) \ active = ∅ ∧
      stitchIter lines polygon active = .ok (res, polygon, active)) ∨
    (({line.1, line.2} : Finset α) \ active ≠ ∅ ∧
      stitchIter lines polygon active = .ok (res,
        (if polygon.head? = some line.1 ∨ polygon.head? = some line.2
         then (if line.1 ∈ active then line.2 else line.1) :: polygon
         else polygon ++ [if line.1 ∈ active then line.2 else line.1]),
        (active \ {line.1, line.2}) ∪ ({line.1, line.2} \ active))) := by
  have hpred := scanFirst_some_pred active lines line res hscan
  have hcle := scanned_diff_card_le line active hpred
  by_cases hdiff : ({line.1, line.2} : Finset α) \ active = ∅
  · left
    refine ⟨hdiff, ?_⟩
    simp only [stitchIter, hscan]
    rw [if_pos hdiff]
  · right
    refine ⟨hdiff, ?_⟩
    have h1 : 1 ≤ (({line.1, line.2} : Finset α) \ active).card :=
      Finset.card_pos.mpr (Finset.nonempty_iff_ne_empty.mpr hdiff)
    have hcard : (({line.1, line.2} : Finset α) \ active).card = 1 := by omega
    simp only [stitchIter, hscan]
    rw [if_neg hdiff, if_neg (not_not_intro hcard)]

/-- If every remaining edge lies entirely inside or entirely outside a point
class `S`, all active endpoints are inside `S`, and at least one edge lies
outside, then the stitching loop fails with `RuntimeError`: outside edges are
never scanned, so they survive until no edge intersects the frontier. -/
theorem stitchRun_split (S : Set α) :
    ∀ (n : ℕ) (lines : List (α × α)) (polygon : List α) (active : Finset α),
      lines.length ≤ n →
      (∀ z ∈ active, z ∈ S) →
      (∀ e ∈ lines, (e.1 ∈ S ∧ e.2 ∈ S) ∨ (e.1 ∉ S ∧ e.2 ∉ S)) →
      (∃ e ∈ lines, e.1 ∉ S) →
      stitchRun lines polygon active = .error .runtimeError := by
  intro n
  induction n with
  | zero =>
    intro lines p a hlen _ _ hout
    have hnil : lines = [] := List.length_eq_zero.mp (Nat.le_zero.mp hlen)
    subst hnil
    obtain ⟨e, he, -⟩ := hout
    simp at he
  | succ n ih =>
    intro lines p a hlen hact hpart hout
    have hne : lines ≠ [] := by
      obtain ⟨e, he, -⟩ := hout
      intro hcon
      rw [hcon] at he
      simp at he
    rcases hscan : scanFirst a lines with _ | ⟨line, res⟩
    · refine stitchRun_error _ _ _ _ hne ?_
      rw [stitchIter, hscan]
    · have hpred := scanFirst_some_pred a lines line res hscan
      have hperm := scanFirst_some_perm a lines line res hscan
      have hmem : line ∈ lines := hperm.mem_iff.mpr (List.mem_cons_self line res)
      have hlineS : line.1 ∈ S ∧ line.2 ∈ S := by
        rcases hpart line hmem with h | h
        · exact h
        · exfalso
          rcases hpred with hp | hp
          · exact h.1 (hact _ hp)
          · exact h.2 (hact _ hp)
      have hout2 : ∃ e ∈ res, e.1 ∉ S := by
        obtain ⟨e, he, heS⟩ := hout
        refine ⟨e, scanFirst_mem_rest a lines line res hscan e he ?_, heS⟩
        intro hcon
        rw [hcon] at heS
        exact heS hlineS.1
      have hlen2 : res.length ≤ n := by
        have := hperm.length_eq
        simp only [List.length_cons] at this
        omega
      have hpart2 : ∀ e ∈ res, (e.1 ∈ S ∧ e.2 ∈ S) ∨ (e.1 ∉ S ∧ e.2 ∉ S) :=
        fun e he => hpart e (hperm.mem_iff.mpr (List.mem_cons_of_mem line he))
      rcases stitchIter_cases lines p a line res hscan with ⟨-, hiter⟩ | ⟨-, hiter⟩
      · rw [stitchRun_step _ _ _ _ _ _ hne hiter]
        exact ih res p a hlen2 hact hpart2 hout2
      · rw [stitchRun_step _ _ _ _ _ _ hne hiter]
        refine ih res _ _ hlen2 ?_ hpart2 hout2
        intro z hz
        rcases Finset.mem_union.mp hz with hz2 | hz2
        · exact hact z (Finset.mem_sdiff.mp hz2).1
        · rcases Finset.mem_insert.mp (Finset.mem_sdiff.mp hz2).1 with rfl | hz3
          · exact hlineS.1
          · rw [Finset.mem_singleton] at hz3
            rw [hz3]
            exact hlineS.2

/-- If the input edges split into two non-empty groups with no point in
common (each edge lying entirely on one side), `_connect_outlines` fails with
`RuntimeError`, whichever side the seed edge is drawn from. -/
theorem connect_outlines_split (outlines : List (α × α)) (S : Set α)
    (hpart : ∀ e ∈ outlines, (e.1 ∈ S ∧ e.2 ∈ S) ∨ (e.1 ∉ S ∧ e.2 ∉ S))
    (hin : ∃ e ∈ outlines, e.1 ∈ S) (hout : ∃ e ∈ outlines, e.1 ∉ S) :
    _connect_outlines outlines = .error .runtimeError := by
  have hne : outlines ≠ [] := by
    obtain ⟨e, he, -⟩ := hin
    intro hcon
    rw [hcon] at he
    simp at he
  obtain ⟨line, hlast⟩ := Option.ne_none_iff_exists'.mp
    (mt List.getLast?_eq_none_iff.mp hne)
  have hdecomp : outlines.dropLast ++ [line] = outlines :=
    List.dropLast_append_getLast? line (Option.mem_def.mpr hlast)
  have hlinemem : line ∈ outlines := by
    rw [← hdecomp]
    exact List.mem_append_right _ (List.mem_singleton_self line)
  have hmem_drop : ∀ x ∈ outlines, x ≠ line → x ∈ outlines.dropLast := by
    intro x hx hxne
    rw [← hdecomp] at hx
    rcases List.mem_append.mp hx with h | h
    · exact h
    · rw [List.mem_singleton] at h
      exact absurd h hxne
  rw [_connect_outlines, hlast]
  rcases hpart line hlinemem with hseed | hseed
  · -- seed edge inside S
    refine stitchRun_split S outlines.dropLast.length _ _ _ (le_refl _) ?_ ?_ ?_
    · intro z hz
      rcases Finset.mem_insert.mp hz with rfl | hz2
      · exact hseed.1
      · rw [Finset.mem_singleton] at hz2
        rw [hz2]
        exact hseed.2
    · intro e he
      exact hpart e (by rw [← hdecomp]; exact List.mem_append_left _ he)
    · obtain ⟨e, he, heS⟩ := hout
      refine ⟨e, hmem_drop e he ?_, heS⟩
      intro hcon
      rw [hcon] at heS
      exact heS hseed.1
  · -- seed edge outside S: run the same argument with the complement
    refine stitchRun_split Sᶜ outlines.dropLast.length _ _ _ (le_refl _) ?_ ?_ ?_
    · intro z hz
      rcases Finset.mem_insert.mp hz with rfl | hz2
      · exact hseed.1
      · rw [Finset.mem_singleton] at hz2
        rw [hz2]
        exact hseed.2
    · intro e he
      rcases hpart e (by rw [← hdecomp]; exact List.mem_append_left _ he) with h | h
      · exact Or.inr ⟨fun hc => hc h.1, fun hc => hc h.2⟩
      · exact Or.inl ⟨h.1, h.2⟩
    · obtain ⟨e, he, heS⟩ := hin
      refine ⟨e, hmem_drop e he ?_, fun hc => hc heS⟩
      intro hcon
      rw [hcon] at heS
      exact hseed.1 heS

end SplitLemmas

section DisjointAmended

variable {α : Type} [DecidableEq α]

/-- C3 (amended): when the non-loop input splits into two non-empty groups
with no point in common — e.g. two disjoint loops, or a base whose tiles form
disconnected clusters — `_connect_outlines` deterministically fails with the
`DisjointBoundary` error (`RuntimeError`): the scan finds no remaining edge
sharing a point with the active endpoints once the seed's group is exhausted.
(Connected inputs that are not a single closed loop may instead return an
incorrect polygon, see the counterexample.) -/
theorem connect_outlines_disjoint_error (outlines : List (α × α)) (S : Set α)
    (hpart : ∀ e ∈ outlines, (e.1 ∈ S ∧ e.2 ∈ S) ∨ (e.1 ∉ S ∧ e.2 ∉ S))
    (hin : ∃ e ∈ outlines, e.1 ∈ S) (hout : ∃ e ∈ outlines, e.1 ∉ S) :
    _connect_outlines outlines = .error .runtimeError :=
  connect_outlines_split outlines S hpart hin hout

/-- C3 witness: two vertex-disjoint triangles under one base id fail with the
`DisjointBoundary` error. -/
theorem connect_outlines_disjoint_error_witness :
    _connect_outlines [((10 : ℤ), 11), (11, 12), (12, 10), (0, 1), (1, 2), (2, 0)] =
      .error .runtimeError := by
  refine connect_outlines_disjoint_error _ {z : ℤ | z < 5} ?_ ?_ ?_
  · intro e he
    simp only [List.mem_cons, List.not_mem_nil, or_false] at he
    rcases he with rfl | rfl | rfl | rfl | rfl | rfl <;>
      simp [Set.mem_setOf_eq]
  · exact ⟨(0, 1), by simp, by simp [Set.mem_setOf_eq]⟩
  · exact ⟨(10, 11), by simp, by simp [Set.mem_setOf_eq]⟩

end DisjointAmended

section PathSymsLemmas

variable {α : Type} [DecidableEq α]

/-- The path over `a :: t` has one edge per element of `t`. -/
theorem pathSyms_length : ∀ (a : α) (t : List α), (pathSyms (a :: t)).length = t.length := by
  intro a t
  induction t generalizing a with
  | nil => rfl
  | cons b u ih => rw [pathSyms, List.length_cons, List.length_cons, ih b]

/-- `pathSyms` of a cons, when the tail is non-empty. -/
theorem pathSyms_cons (x : α) (l : List α) (w : α) (hw : l.head? = some w) :
    pathSyms (x :: l) = s(x, w) :: pathSyms l := by
  cases l with
  | nil => simp at hw
  | cons b u =>
    simp only [List.head?_cons, Option.some.injEq] at hw
    rw [hw, pathSyms]

/-- `pathSyms` distributes over an append, inserting the connecting edge. -/
theorem pathSyms_append :
    ∀ (l₁ l₂ : List α) (z w : α), l₁.getLast? = some z → l₂.head? = some w →
      pathSyms (l₁ ++ l₂) = pathSyms l₁ ++ s(z, w) :: pathSyms l₂ := by
  intro l₁
  induction l₁ with
  | nil => intro l₂ z w hz hw; simp at hz
  | cons a t ih =>
    intro l₂ z w hz hw
    cases t with
    | nil =>
      simp only [List.getLast?_singleton, Option.some.injEq] at hz
      subst hz
      rw [List.singleton_append, pathSyms_cons a l₂ w hw]
      rfl
    | cons b u =>
      rw [List.getLast?_cons_cons] at hz
      have hrec := ih l₂ z w hz hw
      have hcons : (a :: b :: u) ++ l₂ = a :: ((b :: u) ++ l₂) := rfl
      rw [hcons, pathSyms_cons a ((b :: u) ++ l₂) b rfl, hrec,
        pathSyms_cons a (b :: u) b rfl]
      rfl

/-- `pathSyms` of a snoc: the edge to the appended point is added at the end. -/
theorem pathSyms_snoc (l : List α) (z x : α) (hz : l.getLast? = some z) :
    pathSyms (l ++ [x]) = pathSyms l ++ [s(z, x)] :=
  pathSyms_append l [x] z x hz rfl

/-- `pathSyms` is reversed, edge for edge, by reversing the path. -/
theorem pathSyms_reverse : ∀ l : List α, pathSyms l.reverse = (pathSyms l).reverse := by
  intro l
  induction l with
  | nil => rfl
  | cons a t ih =>
    cases t with
    | nil => rfl
    | cons b u =>
      rw [List.reverse_cons, pathSyms_snoc _ _ a
        (by rw [List.getLast?_reverse]; rfl), ih, pathSyms, List.reverse_cons]
      rw [Sym2.eq_swap]

/-- Every point of an edge on a path lies on the path. -/
theorem pathSyms_mem_point :
    ∀ (l : List α) (s : Sym2 α), s ∈ pathSyms l → ∀ x ∈ s, x ∈ l := by
  intro l
  induction l with
  | nil => intro s hs; simp [pathSyms] at hs
  | cons a t ih =>
    intro s hs x hx
    cases t with
    | nil => simp [pathSyms] at hs
    | cons b u =>
      rw [pathSyms, List.mem_cons] at hs
      rcases hs with rfl | hs
      · rcases Sym2.mem_iff.mp hx with rfl | rfl
        · exact List.mem_cons_self _ _
        · exact List.mem_cons_of_mem _ (List.mem_cons_self _ _)
      · exact List.mem_cons_of_mem _ (ih s hs x hx)

/-- Every edge on a path joins two consecutive path points. -/
theorem pathSyms_mem_split :
    ∀ (l : List α) (s : Sym2 α), s ∈ pathSyms l →
      ∃ l₁ x y l₂, l = l₁ ++ x :: y :: l₂ ∧ s = s(x, y) := by
  intro l
  induction l with
  | nil => intro s hs; simp [pathSyms] at hs
  | cons a t ih =>
    intro s hs
    cases t with
    | nil => simp [pathSyms] at hs
    | cons b u =>
      rw [pathSyms, List.mem_cons] at hs
      rcases hs with rfl | hs
      · exact ⟨[], a, b, u, rfl, rfl⟩
      · obtain ⟨l₁, x, y, l₂, heq, hxy⟩ := ih s hs
        exact ⟨a :: l₁, x, y, l₂, by rw [List.cons_append, heq], hxy⟩

/-- On a duplicate-free path, an edge containing the head is the first edge. -/
theorem pathSyms_head_edge (r : List α) (hr : r.Nodup) (s : Sym2 α)
    (hs : s ∈ pathSyms r) (h0 : α) (hh : r.head? = some h0) (hx : h0 ∈ s) :
    ∃ w t, r = h0 :: w :: t ∧ s = s(h0, w) := by
  cases r with
  | nil => simp at hh
  | cons a t =>
    simp only [List.head?_cons, Option.some.injEq] at hh
    subst hh
    cases t with
    | nil => simp [pathSyms] at hs
    | cons b u =>
      rw [pathSyms, List.mem_cons] at hs
      rcases hs with rfl | hs
      · exact ⟨b, u, rfl, rfl⟩
      · exfalso
        have := pathSyms_mem_point (b :: u) s hs a hx
        exact (List.nodup_cons.mp hr).1 this

/-- On a duplicate-free path, an edge containing the last point is the last
edge. -/
theorem pathSyms_last_edge (r : List α) (hr : r.Nodup) (s : Sym2 α)
    (hs : s ∈ pathSyms r) (e0 : α) (hl : r.getLast? = some e0) (hx : e0 ∈ s) :
    ∃ w m, r = m ++ [w, e0] ∧ s = s(w, e0) := by
  have hs2 : s ∈ pathSyms r.reverse := by
    rw [pathSyms_reverse, List.mem_reverse]
    exact hs
  have hh2 : r.reverse.head? = some e0 := by rw [List.head?_reverse]; exact hl
  obtain ⟨w, t, heq, hsval⟩ :=
    pathSyms_head_edge r.reverse (List.nodup_reverse.mpr hr) s hs2 e0 hh2 hx
  refine ⟨w, t.reverse, ?_, by rw [hsval, Sym2.eq_swap]⟩
  have := congrArg List.reverse heq
  rw [List.reverse_reverse] at this
  rw [this]
  simp

/-- `cycSyms` in terms of the head and last points. -/
theorem cycSyms_eq (l : List α) (h0 e0 : α) (hh : l.head? = some h0)
    (hl : l.getLast? = some e0) : cycSyms l = pathSyms l ++ [s(e0, h0)] := by
  cases l with
  | nil => simp at hh
  | cons a t =>
    simp only [List.head?_cons, Option.some.injEq] at hh
    subst hh
    rw [cycSyms]
    have : t.getLastD a = e0 := by
      rw [List.getLastD_eq_getLast? a t]
      cases t with
      | nil =>
        simp only [List.getLast?_singleton, Option.some.injEq] at hl
        simp [hl]
      | cons b u =>
        rw [List.getLast?_cons_cons] at hl
        rw [hl]
        rfl
    rw [this]

/-- The cycle over `a :: t` has one edge per point. -/
theorem cycSyms_length (a : α) (t : List α) : (cycSyms (a :: t)).length = t.length + 1 := by
  rw [cycSyms, List.length_append, pathSyms_length, List.length_singleton]

/-- Edges of a cycle over a duplicate-free list of length at least 2 join two
distinct points. -/
theorem cycSyms_ne (c : List α) (hnd : c.Nodup) (hlen : 2 ≤ c.length)
    (x y : α) (h : s(x, y) ∈ cycSyms c) : x ≠ y := by
  cases c with
  | nil => simp at hlen
  | cons a t =>
    rw [cycSyms, List.mem_append] at h
    rcases h with h | h
    · obtain ⟨l₁, p, q, l₂, heq, hpq⟩ := pathSyms_mem_split _ _ h
      have hpq2 : p ≠ q := by
        rw [heq] at hnd
        have := List.Nodup.sublist (by simp : [p, q].Sublist (p :: q :: l₂)) (hnd.sublist
          (List.sublist_append_right l₁ _))
        simp only [List.nodup_cons, List.mem_singleton] at this
        exact this.1
      rcases Sym2.eq_iff.mp hpq with ⟨rfl, rfl⟩ | ⟨rfl, rfl⟩
      · exact hpq2
      · exact hpq2.symm
    · rw [List.mem_singleton] at h
      cases t with
      | nil => simp at hlen
      | cons b u =>
        have hne2 : b :: u ≠ [] := List.cons_ne_nil b u
        have hgl : (b :: u).getLastD a = (b :: u).getLast hne2 := by
          rw [List.getLastD_eq_getLast? a, List.getLast?_eq_getLast _ hne2]
          rfl
        have hmem : (b :: u).getLast hne2 ∈ b :: u := List.getLast_mem hne2
        have hna : a ∉ b :: u := (List.nodup_cons.mp hnd).1
        have hne3 : (b :: u).getLastD a ≠ a := by
          rw [hgl]
          intro hcon
          exact hna (hcon ▸ hmem)
        rcases Sym2.eq_iff.mp h with ⟨hx1, hy1⟩ | ⟨hx1, hy1⟩
        · rw [hx1, hy1]
          exact hne3
        · rw [hx1, hy1]
          exact fun hcon => hne3 hcon.symm

end PathSymsLemmas

section RotationLemma

variable {α : Type} [DecidableEq α]

/-- Any edge of a cycle can serve as the seed: the cycle splits into the
seed edge `{a, b}` and the complementary path from `b` back to `a`. -/
theorem cycSyms_rotation (c : List α) (a b : α)
    (hnd : c.Nodup) (hlen : 2 ≤ c.length) (hmem : s(a, b) ∈ cycSyms c) :
    ∃ q : List α, ([a, b] ++ q).Perm c ∧
      (cycSyms c).Perm (s(a, b) :: pathSyms (b :: (q ++ [a]))) := by
  have hcne : c ≠ [] := by
    intro hcon
    rw [hcon] at hlen
    simp at hlen
  obtain ⟨e0, hl⟩ := Option.ne_none_iff_exists'.mp (mt List.getLast?_eq_none_iff.mp hcne)
  have hh : ∃ h0, c.head? = some h0 := by
    cases c with
    | nil => exact absurd rfl hcne
    | cons z t => exact ⟨z, rfl⟩
  obtain ⟨h0, hh⟩ := hh
  rw [cycSyms_eq c h0 e0 hh hl, List.mem_append] at hmem
  rcases hmem with hmem | hmem
  · -- the seed is an interior path edge
    obtain ⟨l₁, x, y, l₂, hceq, hxy⟩ := pathSyms_mem_split c (s(a, b)) hmem
    have hcq : ([x, y] ++ (l₂ ++ l₁)).Perm c := by
      rw [hceq, ← Multiset.coe_eq_coe]
      simp only [← Multiset.cons_coe, ← Multiset.coe_add, ← Multiset.singleton_add]
      abel
    have hP : (cycSyms c).Perm (s(x, y) :: pathSyms ((y :: l₂) ++ (l₁ ++ [x]))) := by
      cases l₁ with
      | nil =>
        simp only [List.nil_append] at hceq
        have hh0 : h0 = x := by
          rw [hceq] at hh
          simp only [List.head?_cons, Option.some.injEq] at hh
          exact hh.symm
        have he0 : (y :: l₂).getLast? = some e0 := by
          rw [hceq, List.getLast?_cons_cons] at hl
          exact hl
        rw [cycSyms_eq c h0 e0 hh hl, hh0, hceq, List.nil_append,
          pathSyms_snoc (y :: l₂) e0 x he0]
        rw [show pathSyms (x :: y :: l₂) = s(x, y) :: pathSyms (y :: l₂) from rfl]
        rw [List.cons_append]
      | cons c0 l₁x =>
        have hl₁ne : c0 :: l₁x ≠ [] := List.cons_ne_nil c0 l₁x
        obtain ⟨gl₁, hgl₁⟩ := Option.ne_none_iff_exists'.mp
          (mt List.getLast?_eq_none_iff.mp hl₁ne)
        have hh0 : h0 = c0 := by
          rw [hceq, List.head?_append_of_ne_nil _ hl₁ne] at hh
          simp only [List.head?_cons, Option.some.injEq] at hh
          exact hh.symm
        have he0 : (y :: l₂).getLast? = some e0 := by
          rw [hceq, List.getLast?_append_of_ne_nil _ (List.cons_ne_nil x _),
            List.getLast?_cons_cons] at hl
          exact hl
        have hpathc : pathSyms c =
            pathSyms (c0 :: l₁x) ++ s(gl₁, x) :: (s(x, y) :: pathSyms (y :: l₂)) := by
          rw [hceq, pathSyms_append (c0 :: l₁x) (x :: y :: l₂) gl₁ x hgl₁ rfl]
          rfl
        have hpathP : pathSyms ((y :: l₂) ++ ((c0 :: l₁x) ++ [x])) =
            pathSyms (y :: l₂) ++ s(e0, c0) ::
              (pathSyms (c0 :: l₁x) ++ [s(gl₁, x)]) := by
          rw [pathSyms_append (y :: l₂) ((c0 :: l₁x) ++ [x]) e0 c0 he0
            (by rw [List.head?_append_of_ne_nil _ hl₁ne]; rfl),
            pathSyms_snoc (c0 :: l₁x) gl₁ x hgl₁]
        rw [cycSyms_eq c h0 e0 hh hl, hh0, hpathc, hpathP, ← Multiset.coe_eq_coe]
        simp only [← Multiset.cons_coe, ← Multiset.coe_add, ← Multiset.singleton_add]
        abel
    rcases Sym2.eq_iff.mp hxy with ⟨hax, hby⟩ | ⟨hay, hbx⟩
    · refine ⟨l₂ ++ l₁, ?_, ?_⟩
      · rw [hax, hby]
        exact hcq
      · have hshape : (y :: l₂) ++ (l₁ ++ [x]) = y :: ((l₂ ++ l₁) ++ [x]) := by
          simp
        rw [hax, hby, ← hshape]
        exact hP
    · refine ⟨(l₂ ++ l₁).reverse, ?_, ?_⟩
      · refine List.Perm.trans ?_ hcq
        rw [hay, hbx, ← Multiset.coe_eq_coe]
        simp only [← Multiset.cons_coe, ← Multiset.coe_add, ← Multiset.singleton_add,
          Multiset.coe_reverse]
        abel
      · have hshape : (x :: ((l₂ ++ l₁).reverse ++ [y])) =
            ((y :: l₂) ++ (l₁ ++ [x])).reverse := by
          simp
        rw [hay, hbx, show s(y, x) = s(x, y) from Sym2.eq_swap, hshape, pathSyms_reverse]
        exact hP.trans (List.Perm.cons _ (List.reverse_perm _).symm)
  · -- the seed is the closing edge
    rw [List.mem_singleton] at hmem
    obtain ⟨mid, hmid⟩ : ∃ mid, c.dropLast = h0 :: mid := by
      have hd : c.dropLast ++ [e0] = c := List.dropLast_append_getLast? e0
        (Option.mem_def.mpr hl)
      cases hdl : c.dropLast with
      | nil =>
        exfalso
        rw [hdl, List.nil_append] at hd
        rw [← hd] at hlen
        simp at hlen
      | cons z t =>
        refine ⟨t, ?_⟩
        have : c.head? = some z := by
          rw [← hd, hdl, List.head?_append_of_ne_nil _ (List.cons_ne_nil z t)]
          rfl
        rw [hh] at this
        simp only [Option.some.injEq] at this
        rw [this]
    have hcdec : c = h0 :: mid ++ [e0] := by
      have hd : c.dropLast ++ [e0] = c := List.dropLast_append_getLast? e0
        (Option.mem_def.mpr hl)
      rw [← hmid]
      exact hd.symm
    rcases Sym2.eq_iff.mp hmem with ⟨hae, hbh⟩ | ⟨hah, hbe⟩
    · -- a = e0, b = h0: the complement is the whole remaining path forwards
      refine ⟨mid, ?_, ?_⟩
      · rw [hae, hbh, hcdec, ← Multiset.coe_eq_coe]
        simp only [← Multiset.cons_coe, ← Multiset.coe_add, ← Multiset.singleton_add]
        abel
      · rw [cycSyms_eq c h0 e0 hh hl, hae, hbh]
        have hcback : (h0 :: (mid ++ [e0]) : List α) = c := by
          rw [hcdec]
          rfl
        rw [hcback]
        exact List.perm_append_singleton _ _
    · -- a = h0, b = e0: the complement is the remaining path reversed
      refine ⟨mid.reverse, ?_, ?_⟩
      · rw [hah, hbe, hcdec, ← Multiset.coe_eq_coe]
        simp only [← Multiset.cons_coe, ← Multiset.coe_add, ← Multiset.singleton_add,
          Multiset.coe_reverse]
        abel
      · rw [cycSyms_eq c h0 e0 hh hl, hah, hbe]
        have hshape : (e0 :: (mid.reverse ++ [h0]) : List α) = c.reverse := by
          rw [hcdec]
          simp
        rw [show s(h0, e0) = s(e0, h0) from Sym2.eq_swap, hshape, pathSyms_reverse]
        refine (List.perm_append_singleton _ _).trans (List.Perm.cons _ ?_)
        exact (List.reverse_perm _).symm

end RotationLemma

section CycleRun

variable {α : Type} [DecidableEq α]

/-- Loop invariant of the stitcher on a single closed loop: if the remaining
edges form exactly the complementary path from the polygon's last point back
to its head, the loop consumes them all and returns a duplicate-free polygon
whose closed edge set is the polygon-so-far's path edges plus the remaining
edges. -/
theorem stitchRun_cycle :
    ∀ (n : ℕ) (lines : List (α × α)) (polygon : List α) (active : Finset α)
      (q : List α) (ph pl : α),
      lines.length ≤ n →
      polygon.head? = some ph → polygon.getLast? = some pl →
      2 ≤ polygon.length → (polygon ++ q).Nodup →
      active = ({ph, pl} : Finset α) →
      (lines.map sym2OfPair).Perm (pathSyms (pl :: (q ++ [ph]))) →
      ∃ poly, stitchRun lines polygon active = .ok poly ∧ poly.Nodup ∧
        poly.length = polygon.length + q.length ∧
        (cycSyms poly).Perm (pathSyms polygon ++ lines.map sym2OfPair) := by
  intro n
  induction n with
  | zero =>
    intro lines polygon active q ph pl hlen hh hl hplen hnd hact hperm
    exfalso
    have h0 : lines = [] := List.length_eq_zero.mp (Nat.le_zero.mp hlen)
    subst h0
    have hle := hperm.length_eq
    rw [List.map_nil, List.length_nil, pathSyms_length] at hle
    simp at hle
  | succ n ih =>
    intro lines polygon active q ph pl hlen hh hl hplen hnd hact hperm
    have hndpoly : polygon.Nodup := (List.nodup_append.mp hnd).1
    have hndq : q.Nodup := (List.nodup_append.mp hnd).2.1
    have hdisj : polygon.Disjoint q := (List.nodup_append.mp hnd).2.2
    obtain ⟨t, hpt⟩ : ∃ t, polygon = ph :: t := by
      cases polygon with
      | nil => simp at hh
      | cons z0 t =>
        simp only [List.head?_cons, Option.some.injEq] at hh
        exact ⟨t, by rw [hh]⟩
    have htne : t ≠ [] := by
      intro hcon
      rw [hpt, hcon] at hplen
      simp at hplen
    have hplmem : pl ∈ t := by
      rw [hpt] at hl
      cases t with
      | nil => exact absurd rfl htne
      | cons b u =>
        rw [List.getLast?_cons_cons] at hl
        have hdec := List.dropLast_append_getLast? pl (Option.mem_def.mpr hl)
        rw [← hdec]
        exact List.mem_append_right _ (List.mem_singleton_self pl)
    have hne : ph ≠ pl := by
      intro hcon
      have hnocc := (List.nodup_cons.mp (hpt ▸ hndpoly)).1
      exact hnocc (hcon ▸ hplmem)
    have hphmem : ph ∈ polygon := by rw [hpt]; exact List.mem_cons_self _ _
    have hplpoly : pl ∈ polygon := by rw [hpt]; exact List.mem_cons_of_mem _ hplmem
    have hphq : ph ∉ q := fun hq => hdisj hphmem hq
    have hplq : pl ∉ q := fun hq => hdisj hplpoly hq
    have hphact : ph ∈ active := by rw [hact]; exact Finset.mem_insert_self ph {pl}
    have hplact : pl ∈ active := by
      rw [hact]
      exact Finset.mem_insert_of_mem (Finset.mem_singleton_self pl)
    have hrnd : (pl :: (q ++ [ph])).Nodup := by
      rw [List.nodup_cons]
      constructor
      · intro hcon
        rcases List.mem_append.mp hcon with h | h
        · exact hplq h
        · rw [List.mem_singleton] at h
          exact hne h.symm
      · rw [List.nodup_append]
        refine ⟨hndq, List.nodup_singleton ph, ?_⟩
        intro z0 hz hz2
        rw [List.mem_singleton] at hz2
        exact hphq (hz2 ▸ hz)
    cases q with
    | nil =>
      -- only the loop-closing edge remains
      have hr : pathSyms (pl :: (([] : List α) ++ [ph])) = [s(pl, ph)] := rfl
      rw [hr] at hperm
      have hmapeq : lines.map sym2OfPair = [s(pl, ph)] := List.perm_singleton.mp hperm
      obtain ⟨e, he⟩ : ∃ e, lines = [e] := by
        cases lines with
        | nil => simp at hmapeq
        | cons e es =>
          cases es with
          | nil => exact ⟨e, rfl⟩
          | cons f fs => simp at hmapeq
      subst he
      simp only [List.map_cons, List.map_nil, List.cons.injEq, and_true] at hmapeq
      have hpred : e.1 ∈ active ∨ e.2 ∈ active := by
        rcases Sym2.eq_iff.mp hmapeq with ⟨h1, -⟩ | ⟨h1, -⟩
        · exact Or.inl (by rw [h1]; exact hplact)
        · exact Or.inl (by rw [h1]; exact hphact)
      have hscan : scanFirst active [e] = some (e, []) := by
        rw [scanFirst, if_pos hpred]
      have hpts : ({e.1, e.2} : Finset α) = {ph, pl} := by
        rcases Sym2.eq_iff.mp hmapeq with ⟨h1, h2⟩ | ⟨h1, h2⟩
        · rw [h1, h2]
          exact Finset.pair_comm pl ph
        · rw [h1, h2]
      have hdiff : ({e.1, e.2} : Finset α) \ active = ∅ := by
        rw [hpts, hact, Finset.sdiff_self]
      rcases stitchIter_cases [e] polygon active e [] hscan with ⟨-, hiter⟩ | ⟨hcon, -⟩
      · refine ⟨polygon, ?_, hndpoly, by simp, ?_⟩
        · rw [stitchRun_step _ _ _ _ _ _ (List.cons_ne_nil e []) hiter, stitchRun_nil]
        · rw [cycSyms_eq polygon ph pl hh hl, List.map_cons, List.map_nil, hmapeq]
      · exact absurd hdiff hcon
    | cons z qx =>
      -- the scan finds an edge touching the frontier
      have hlinesne : ∃ line res, scanFirst active lines = some (line, res) := by
        have hfirstmem : s(pl, z) ∈ pathSyms (pl :: ((z :: qx) ++ [ph])) := by
          rw [pathSyms_cons pl ((z :: qx) ++ [ph]) z rfl]
          exact List.mem_cons_self _ _
        obtain ⟨e, helines, hesym⟩ := List.mem_map.mp (hperm.mem_iff.mpr hfirstmem)
        have hpred : e.1 ∈ active ∨ e.2 ∈ active := by
          rcases Sym2.eq_iff.mp hesym with ⟨h1, -⟩ | ⟨-, h2⟩
          · exact Or.inl (by rw [h1]; exact hplact)
          · exact Or.inr (by rw [h2]; exact hplact)
        obtain ⟨f, rest, hf⟩ := scanFirst_isSome active lines e helines hpred
        exact ⟨f, rest, hf⟩
      obtain ⟨line, res, hscan⟩ := hlinesne
      have hlne : lines ≠ [] := by
        intro hcon
        rw [hcon] at hscan
        simp [scanFirst] at hscan
      have hpredL := scanFirst_some_pred active lines line res hscan
      have hpermL := scanFirst_some_perm active lines line res hscan
      have hlinemem : line ∈ lines := hpermL.mem_iff.mpr (List.mem_cons_self _ _)
      have hsymmem : sym2OfPair line ∈ pathSyms (pl :: ((z :: qx) ++ [ph])) :=
        hperm.mem_iff.mp (List.mem_map_of_mem sym2OfPair hlinemem)
      have hmapchain : (lines.map sym2OfPair).Perm
          (sym2OfPair line :: res.map sym2OfPair) := by
        have := hpermL.map sym2OfPair
        rw [List.map_cons] at this
        exact this
      have hreslen : res.length ≤ n := by
        have := hpermL.length_eq
        simp only [List.length_cons] at this
        omega
      have hzq : z ∈ z :: qx := List.mem_cons_self _ _
      have hzph : z ≠ ph := fun hcon => hphq (hcon ▸ hzq)
      have hzpl : z ≠ pl := fun hcon => hplq (hcon ▸ hzq)
      have hkey : pl ∈ sym2OfPair line ∨ ph ∈ sym2OfPair line := by
        rcases hpredL with h | h
        · rcases Finset.mem_insert.mp (hact ▸ h) with h2 | h2
          · exact Or.inr (h2 ▸ Sym2.mem_iff.mpr (Or.inl rfl))
          · rw [Finset.mem_singleton] at h2
            exact Or.inl (h2 ▸ Sym2.mem_iff.mpr (Or.inl rfl))
        · rcases Finset.mem_insert.mp (hact ▸ h) with h2 | h2
          · exact Or.inr (h2 ▸ Sym2.mem_iff.mpr (Or.inr rfl))
          · rw [Finset.mem_singleton] at h2
            exact Or.inl (h2 ▸ Sym2.mem_iff.mpr (Or.inr rfl))
      rcases hkey with hkey | hkey
      · -- the found edge is the first path edge s(pl, z): extend at the tail
        obtain ⟨w, t2, hreq, hsval⟩ :=
          pathSyms_head_edge _ hrnd _ hsymmem pl rfl hkey
        have hwz : w = z := by
          simp only [List.cons_append, List.cons.injEq] at hreq
          exact hreq.2.1.symm
        rw [hwz] at hsval
        have hpts : ({line.1, line.2} : Finset α) = {pl, z} := by
          rcases Sym2.eq_iff.mp hsval with ⟨h1, h2⟩ | ⟨h1, h2⟩
          · rw [h1, h2]
          · rw [h1, h2]
            exact Finset.pair_comm z pl
        have hzact : z ∉ active := by
          rw [hact]
          intro hcon
          rcases Finset.mem_insert.mp hcon with h2 | h2
          · exact hzph h2
          · rw [Finset.mem_singleton] at h2
            exact hzpl h2
        have hdiffne : ({line.1, line.2} : Finset α) \ active ≠ ∅ := by
          rw [hpts]
          intro hcon
          have : z ∈ ({pl, z} : Finset α) \ active := Finset.mem_sdiff.mpr
            ⟨Finset.mem_insert_of_mem (Finset.mem_singleton_self z), hzact⟩
          rw [hcon] at this
          exact absurd this (Finset.not_mem_empty z)
        rcases stitchIter_cases lines polygon active line res hscan with
          ⟨hcon, -⟩ | ⟨-, hiter⟩
        · exact absurd hcon hdiffne
        have hnew : (if line.1 ∈ active then line.2 else line.1) = z := by
          rcases Sym2.eq_iff.mp hsval with ⟨h1, h2⟩ | ⟨h1, h2⟩
          · rw [if_pos (by rw [h1]; exact hplact)]
            exact h2
          · rw [if_neg (by rw [h1]; exact hzact)]
            exact h1
        have hcond : ¬(polygon.head? = some line.1 ∨ polygon.head? = some line.2) := by
          rw [hpt]
          simp only [List.head?_cons, Option.some.injEq]
          rcases Sym2.eq_iff.mp hsval with ⟨h1, h2⟩ | ⟨h1, h2⟩
          · rw [h1, h2]
            rintro (hcon | hcon)
            · exact hne hcon
            · exact hzph hcon.symm
          · rw [h1, h2]
            rintro (hcon | hcon)
            · exact hzph hcon.symm
            · exact hne hcon
        have hact2 : (active \ {line.1, line.2}) ∪ ({line.1, line.2} \ active) =
            ({ph, z} : Finset α) := by
          rw [hpts, hact]
          ext z0
          simp only [Finset.mem_union, Finset.mem_sdiff, Finset.mem_insert,
            Finset.mem_singleton]
          constructor
          · rintro (⟨rfl | rfl, hz2⟩ | ⟨rfl | rfl, hz2⟩)
            · exact Or.inl rfl
            · exact absurd (Or.inl rfl) hz2
            · exact absurd (Or.inr rfl) hz2
            · exact Or.inr rfl
          · rintro (rfl | rfl)
            · exact Or.inl ⟨Or.inl rfl, by
                push_neg
                exact ⟨hne.symm ∘ Eq.symm, fun hcon => hzph hcon.symm⟩⟩
            · exact Or.inr ⟨Or.inr rfl, by
                push_neg
                exact ⟨hzph, hzpl⟩⟩
        rw [if_neg hcond, hnew, hact2] at hiter
        have hperm2 : (res.map sym2OfPair).Perm (pathSyms (z :: (qx ++ [ph]))) := by
          have hrshape : pathSyms (pl :: ((z :: qx) ++ [ph])) =
              s(pl, z) :: pathSyms (z :: (qx ++ [ph])) := rfl
          rw [hrshape] at hperm
          have hchain := (hmapchain.symm.trans hperm)
          rw [hsval] at hchain
          exact hchain.cons_inv
        obtain ⟨poly, hrun, hpnd, hplen2, hpcyc⟩ := ih res (polygon ++ [z]) _ qx ph z
          hreslen
          (by rw [List.head?_append_of_ne_nil _ (by rw [hpt]; exact List.cons_ne_nil _ _)]
              exact hh)
          (List.getLast?_concat _)
          (by rw [List.length_append]; omega)
          (by rw [List.append_assoc]; exact hnd)
          rfl
          hperm2
        refine ⟨poly, ?_, hpnd, ?_, ?_⟩
        · rw [stitchRun_step _ _ _ _ _ _ hlne hiter]
          exact hrun
        · rw [hplen2, List.length_append, List.length_singleton, List.length_cons]
          omega
        · refine hpcyc.trans ?_
          rw [pathSyms_snoc polygon pl z hl, List.append_assoc]
          refine List.Perm.append_left (pathSyms polygon) ?_
          have : (s(pl, z) :: res.map sym2OfPair).Perm (lines.map sym2OfPair) := by
            rw [← hsval]
            exact hmapchain.symm
          exact this
      · -- the found edge is the last path edge: extend at the head
        have hlastr : (pl :: ((z :: qx) ++ [ph])).getLast? = some ph := by
          rw [show (pl :: ((z :: qx) ++ [ph]) : List α) =
            (pl :: z :: qx) ++ [ph] from rfl]
          exact List.getLast?_concat _
        obtain ⟨w, m, hreq, hsval⟩ :=
          pathSyms_last_edge _ hrnd _ hsymmem ph hlastr hkey
        -- peel the trailing [ph] off both sides of the decomposition
        have hmw : pl :: z :: qx = m ++ [w] := by
          have h1 : (pl :: z :: qx) ++ [ph] = (m ++ [w]) ++ [ph] := by
            rw [show ((m ++ [w]) ++ [ph] : List α) = m ++ [w, ph] by simp]
            exact hreq
          have h2 := congrArg List.dropLast h1
          rwa [List.dropLast_concat, List.dropLast_concat] at h2
        obtain ⟨mx, hmx⟩ : ∃ mx, m = pl :: mx := by
          cases m with
          | nil =>
            exfalso
            simp only [List.nil_append, List.cons.injEq] at hmw
            exact List.cons_ne_nil z qx hmw.2
          | cons m0 mx =>
            refine ⟨mx, ?_⟩
            simp only [List.cons_append, List.cons.injEq] at hmw
            rw [hmw.1]
        have hqmw : z :: qx = mx ++ [w] := by
          rw [hmx] at hmw
          simp only [List.cons_append, List.cons.injEq] at hmw
          exact hmw.2
        have hwq : w ∈ z :: qx := by
          rw [hqmw]
          exact List.mem_append_right _ (List.mem_singleton_self w)
        have hwph : w ≠ ph := fun hcon => hphq (hcon ▸ hwq)
        have hwpl : w ≠ pl := fun hcon => hplq (hcon ▸ hwq)
        have hwact : w ∉ active := by
          rw [hact]
          intro hcon
          rcases Finset.mem_insert.mp hcon with h2 | h2
          · exact hwph h2
          · rw [Finset.mem_singleton] at h2
            exact hwpl h2
        have hpts : ({line.1, line.2} : Finset α) = {w, ph} := by
          rcases Sym2.eq_iff.mp hsval with ⟨h1, h2⟩ | ⟨h1, h2⟩
          · rw [h1, h2]
          · rw [h1, h2]
            exact Finset.pair_comm ph w
        have hdiffne : ({line.1, line.2} : Finset α) \ active ≠ ∅ := by
          rw [hpts]
          intro hcon
          have : w ∈ ({w, ph} : Finset α) \ active := Finset.mem_sdiff.mpr
            ⟨Finset.mem_insert_self w {ph}, hwact⟩
          rw [hcon] at this
          exact absurd this (Finset.not_mem_empty w)
        rcases stitchIter_cases lines polygon active line res hscan with
          ⟨hcon, -⟩ | ⟨-, hiter⟩
        · exact absurd hcon hdiffne
        have hnew : (if line.1 ∈ active then line.2 else line.1) = w := by
          rcases Sym2.eq_iff.mp hsval with ⟨h1, h2⟩ | ⟨h1, h2⟩
          · rw [if_neg (by rw [h1]; exact hwact)]
            exact h1
          · rw [if_pos (by rw [h1]; exact hphact)]
            exact h2
        have hcond : polygon.head? = some line.1 ∨ polygon.head? = some line.2 := by
          rw [hpt]
          simp only [List.head?_cons, Option.some.injEq]
          rcases Sym2.eq_iff.mp hsval with ⟨h1, h2⟩ | ⟨h1, h2⟩
          · exact Or.inr (by rw [h2])
          · exact Or.inl (by rw [h1])
        have hact2 : (active \ {line.1, line.2}) ∪ ({line.1, line.2} \ active) =
            ({w, pl} : Finset α) := by
          rw [hpts, hact]
          ext z0
          simp only [Finset.mem_union, Finset.mem_sdiff, Finset.mem_insert,
            Finset.mem_singleton]
          constructor
          · rintro (⟨rfl | rfl, hz2⟩ | ⟨rfl | rfl, hz2⟩)
            · exact absurd (Or.inr rfl) hz2
            · exact Or.inr rfl
            · exact Or.inl rfl
            · exact absurd (Or.inl rfl) hz2
          · rintro (rfl | rfl)
            · exact Or.inr ⟨Or.inl rfl, by
                push_neg
                exact ⟨hwph, hwpl⟩⟩
            · exact Or.inl ⟨Or.inr rfl, by
                push_neg
                exact ⟨fun hcon => hwpl hcon.symm, hne.symm⟩⟩
        rw [if_pos hcond, hnew, hact2] at hiter
        have hperm2 : (res.map sym2OfPair).Perm (pathSyms (pl :: (mx ++ [w]))) := by
          have hrshape : (pl :: ((z :: qx) ++ [ph]) : List α) =
              (pl :: (mx ++ [w])) ++ [ph] := by
            rw [show ((pl :: (mx ++ [w])) ++ [ph] : List α) =
              pl :: ((mx ++ [w]) ++ [ph]) from rfl, ← hqmw]
          have hlastm : (pl :: (mx ++ [w])).getLast? = some w := by
            rw [show (pl :: (mx ++ [w]) : List α) = (pl :: mx) ++ [w] from rfl]
            exact List.getLast?_concat _
          have hsnoc : pathSyms (pl :: ((z :: qx) ++ [ph])) =
              pathSyms (pl :: (mx ++ [w])) ++ [s(w, ph)] := by
            rw [hrshape]
            exact pathSyms_snoc _ w ph hlastm
          rw [hsnoc] at hperm
          have hchain := (hmapchain.symm.trans hperm)
          rw [hsval] at hchain
          have hflip : (pathSyms (pl :: (mx ++ [w])) ++ [s(w, ph)]).Perm
              (s(w, ph) :: pathSyms (pl :: (mx ++ [w]))) :=
            List.perm_append_singleton _ _
          exact (hchain.trans hflip).cons_inv
        have hndih : ((w :: polygon) ++ mx).Nodup := by
          have hpermnd : ((w :: polygon) ++ mx).Perm (polygon ++ (z :: qx)) := by
            rw [hqmw, ← Multiset.coe_eq_coe]
            simp only [← Multiset.cons_coe, ← Multiset.coe_add, ← Multiset.singleton_add]
            abel
          exact hpermnd.symm.nodup hnd
        obtain ⟨poly, hrun, hpnd, hplen2, hpcyc⟩ := ih res (w :: polygon) _ mx w pl
          hreslen
          rfl
          (by rw [hpt, List.getLast?_cons_cons]; rw [hpt] at hl; exact hl)
          (by rw [List.length_cons]; omega)
          hndih
          rfl
          hperm2
        refine ⟨poly, ?_, hpnd, ?_, ?_⟩
        · rw [stitchRun_step _ _ _ _ _ _ hlne hiter]
          exact hrun
        · rw [hplen2, List.length_cons]
          have : (z :: qx).length = mx.length + 1 := by
            rw [hqmw]
            simp
          simp only [List.length_cons] at this ⊢
          omega
        · refine hpcyc.trans ?_
          rw [pathSyms_cons w polygon ph (by rw [hpt]; rfl)]
          have hstep1 : ((s(w, ph) :: pathSyms polygon) ++ res.map sym2OfPair).Perm
              (pathSyms polygon ++ (s(w, ph) :: res.map sym2OfPair)) := by
            rw [← Multiset.coe_eq_coe]
            simp only [← Multiset.cons_coe, ← Multiset.coe_add, ← Multiset.singleton_add]
            abel
          refine hstep1.trans ?_
          refine List.Perm.append_left (pathSyms polygon) ?_
          rw [← hsval]
          exact hmapchain.symm

end CycleRun

section SingleLoopClaim

variable {α : Type} [DecidableEq α]

/-- C2: on a non-empty edge set forming exactly one simple closed loop (the
unordered edges of a duplicate-free cycle `c` with at least 3 points),
`_connect_outlines` returns an ordered point sequence with no repeated
points (in particular the first point is not repeated at the end), whose
length equals the number of input edges, and whose consecutive pairs —
wraparound included — are exactly the input edges, each used exactly once
(`cycSyms poly` is a permutation of the input edge multiset). -/
theorem connect_outlines_single_loop (outlines : List (α × α)) (c : List α)
    (hnd : c.Nodup) (hlen : 3 ≤ c.length)
    (hperm : (outlines.map sym2OfPair).Perm (cycSyms c)) :
    ∃ poly, _connect_outlines outlines = .ok poly ∧ poly.Nodup ∧
      poly.length = outlines.length ∧
      (cycSyms poly).Perm (outlines.map sym2OfPair) := by
  have hcne : c ≠ [] := by
    intro hcon
    rw [hcon] at hlen
    simp at hlen
  have hcyclen : (cycSyms c).length = c.length := by
    cases c with
    | nil => exact absurd rfl hcne
    | cons a t => rw [cycSyms_length]; simp
  have houtlen : outlines.length = c.length := by
    have hx := hperm.length_eq
    rw [List.length_map] at hx
    rw [hx, hcyclen]
  have hone : outlines ≠ [] := by
    intro hcon
    rw [hcon] at houtlen
    simp only [List.length_nil] at houtlen
    omega
  obtain ⟨e, hlast⟩ := Option.ne_none_iff_exists'.mp (mt List.getLast?_eq_none_iff.mp hone)
  have hdecomp : outlines.dropLast ++ [e] = outlines :=
    List.dropLast_append_getLast? e (Option.mem_def.mpr hlast)
  have hemem : e ∈ outlines := by
    rw [← hdecomp]
    exact List.mem_append_right _ (List.mem_singleton_self e)
  have hsymmem : s(e.1, e.2) ∈ cycSyms c :=
    hperm.mem_iff.mp (List.mem_map_of_mem sym2OfPair hemem)
  have hene : e.1 ≠ e.2 := cycSyms_ne c hnd (by omega) e.1 e.2 hsymmem
  obtain ⟨q, hqperm, hcyc⟩ := cycSyms_rotation c e.1 e.2 hnd (by omega) hsymmem
  have hmapsplit : outlines.map sym2OfPair =
      outlines.dropLast.map sym2OfPair ++ [s(e.1, e.2)] := by
    conv_lhs => rw [← hdecomp]
    rw [List.map_append]
    rfl
  have hdropperm : (outlines.dropLast.map sym2OfPair).Perm
      (pathSyms (e.2 :: (q ++ [e.1]))) := by
    have h1 : (s(e.1, e.2) :: outlines.dropLast.map sym2OfPair).Perm
        (s(e.1, e.2) :: pathSyms (e.2 :: (q ++ [e.1]))) := by
      refine List.Perm.trans ?_ (hperm.trans hcyc)
      rw [hmapsplit]
      exact (List.perm_append_singleton _ _).symm
    exact h1.cons_inv
  obtain ⟨poly, hrun, hpnd, hplen, hpcyc⟩ := stitchRun_cycle outlines.dropLast.length
    outlines.dropLast [e.1, e.2] {e.1, e.2} q e.1 e.2 (le_refl _) rfl rfl
    (by simp) (hqperm.symm.nodup hnd) rfl hdropperm
  refine ⟨poly, ?_, hpnd, ?_, ?_⟩
  · simp only [_connect_outlines, hlast]
    rw [if_neg hene]
    exact hrun
  · have hq := hqperm.length_eq
    simp only [List.length_append, List.length_cons, List.length_singleton] at hq hplen ⊢
    omega
  · refine hpcyc.trans ?_
    rw [show pathSyms [e.1, e.2] = [s(e.1, e.2)] from rfl, hmapsplit]
    have : (s(e.1, e.2) :: outlines.dropLast.map sym2OfPair).Perm
        (outlines.dropLast.map sym2OfPair ++ [s(e.1, e.2)]) :=
      (List.perm_append_singleton _ _).symm
    exact this
  
/-- C2 witness: the triangle edge set `{0,1}, {1,2}, {2,0}` is stitched into
a 3-point duplicate-free polygon using every edge exactly once. -/
theorem connect_outlines_single_loop_witness :
    ∃ poly, _connect_outlines [((0 : ℤ), 1), (1, 2), (2, 0)] = .ok poly ∧ poly.Nodup ∧
      poly.length = ([((0 : ℤ), 1), (1, 2), (2, 0)]).length ∧
      (cycSyms poly).Perm ([((0 : ℤ), 1), (1, 2), (2, 0)].map sym2OfPair) :=
  connect_outlines_single_loop [((0 : ℤ), 1), (1, 2), (2, 0)] [0, 1, 2]
    (by decide) (by decide) (by decide)

end SingleLoopClaim

section NumericLemmas

/-- `log10` of `10^-k` is exactly `-k`. -/
theorem logb_inv_pow (k : ℕ) : Real.logb 10 (1 / 10 ^ k) = -k := by
  rw [show (1 : ℝ) / 10 ^ k = (10 : ℝ) ^ (-(k : ℤ)) by
    rw [zpow_neg, zpow_natCast]
    exact one_div _]
  rw [Real.logb, Real.log_zpow]
  have h10 : Real.log 10 ≠ 0 := ne_of_gt (Real.log_pos (by norm_num))
  push_cast
  field_simp

/-- Truncation toward zero of a negated natural number. -/
theorem int_trunc_neg_natCast (k : ℕ) : int_trunc (-(k : ℝ)) = -(k : ℤ) := by
  rw [int_trunc]
  rcases Nat.eq_zero_or_pos k with rfl | hk
  · simp
  · have hkr : (0 : ℝ) < (k : ℝ) := by exact_mod_cast hk
    rw [if_neg (not_le.mpr (neg_lt_zero.mpr hkr)), neg_neg]
    rw [Int.floor_natCast]

/-- The digit count used by `_get_hexes_outline` at precision `10^-k`. -/
theorem _round_digits_pow (k : ℕ) : _round_digits (1 / 10 ^ k) = k := by
  rw [_round_digits, logb_inv_pow, int_trunc_neg_natCast]
  simp

end NumericLemmas

section RoundLemmas

/-- The rounded value is within one half of the argument. -/
theorem round_to_near (x : ℝ) (d : ℕ) : |round_to x d - x| ≤ 1 / 2 := by
  have hpow : (1 : ℝ) ≤ 10 ^ d := one_le_pow₀ (by norm_num)
  have hpos : (0 : ℝ) < 10 ^ d := by positivity
  have hstep : round_to x d - x = ((round (x * 10 ^ d) : ℝ) - x * 10 ^ d) / 10 ^ d := by
    rw [round_to]
    field_simp
    ring
  rw [hstep, abs_div, abs_of_pos hpos]
  have h1 : |(round (x * 10 ^ d) : ℝ) - x * 10 ^ d| ≤ 1 / 2 := by
    rw [abs_sub_comm]
    exact abs_sub_round (x * 10 ^ d)
  calc |(round (x * 10 ^ d) : ℝ) - x * 10 ^ d| / 10 ^ d
      ≤ (1 / 2) / 10 ^ d := by
        gcongr
    _ ≤ 1 / 2 := by
        rw [div_le_iff hpos]
        nlinarith

/-- Rounding keeps a value strictly below a threshold one unit away. -/
theorem round_to_lt_of (x c : ℝ) (d : ℕ) (h : x ≤ c - 1) : round_to x d < c := by
  have := abs_le.mp (round_to_near x d)
  linarith [this.2]

/-- Rounding keeps a value strictly above a threshold one unit away. -/
theorem lt_round_to_of (x c : ℝ) (d : ℕ) (h : c + 1 ≤ x) : c < round_to x d := by
  have := abs_le.mp (round_to_near x d)
  linarith [this.1]

/-- Exact rounding by the floor bracket. -/
theorem round_to_int (x : ℝ) (d : ℕ) (n : ℤ)
    (h1 : (n : ℝ) ≤ x * 10 ^ d + 1 / 2) (h2 : x * 10 ^ d + 1 / 2 < n + 1) :
    round_to x d = (n : ℝ) / 10 ^ d := by
  rw [round_to, round_eq, Int.floor_eq_iff.mpr ⟨h1, h2⟩]

/-- A value that scales to an integer is unchanged by rounding. -/
theorem round_to_exact (x : ℝ) (d : ℕ) (n : ℤ) (h : x * 10 ^ d = (n : ℝ)) :
    round_to x d = x := by
  have hpos : (0 : ℝ) < 10 ^ d := by positivity
  rw [round_to, h, round_intCast, ← h]
  field_simp

/-- Rational bracket for `√3`, tight enough for 12 decimal digits. -/
theorem sqrt3_bounds : (1.732050807568 : ℝ) < Real.sqrt 3 ∧
    Real.sqrt 3 < (1.7320508075689 : ℝ) := by
  constructor
  · rw [show (1.732050807568 : ℝ) = Real.sqrt (1.732050807568 ^ 2) by
      rw [Real.sqrt_sq (by norm_num)]]
    exact Real.sqrt_lt_sqrt (by positivity) (by norm_num)
  · rw [show (1.7320508075689 : ℝ) = Real.sqrt (1.7320508075689 ^ 2) by
      rw [Real.sqrt_sq (by norm_num)]]
    exact Real.sqrt_lt_sqrt (by norm_num) (by norm_num)

end RoundLemmas

section MapLemmas

variable {α β : Type} [DecidableEq α] [DecidableEq β]

/-- Heads of mapped lists, for an injective map. -/
theorem head_map_eq (f : α → β) (hf : Function.Injective f) (l : List α) (a : α) :
    ((l.map f).head? = some (f a)) ↔ (l.head? = some a) := by
  rw [List.head?_map]
  cases l with
  | nil => simp
  | cons x xs => simp [hf.eq_iff]

/-- `scanFirst` commutes with an injective relabelling of the points. -/
theorem scanFirst_map (f : α → β) (hf : Function.Injective f) (active : Finset α) :
    ∀ lines : List (α × α),
      scanFirst (active.image f) (lines.map (Prod.map f f)) =
        (scanFirst active lines).map
          (fun p => (Prod.map f f p.1, p.2.map (Prod.map f f))) := by
  intro lines
  induction lines with
  | nil => rfl
  | cons l ls ih =>
    rw [List.map_cons, scanFirst, scanFirst]
    have hcond : ((Prod.map f f l).1 ∈ active.image f ∨ (Prod.map f f l).2 ∈ active.image f)
        ↔ (l.1 ∈ active ∨ l.2 ∈ active) := by
      rw [Prod.map_fst, Prod.map_snd, hf.mem_finset_image, hf.mem_finset_image]
    by_cases hc : l.1 ∈ active ∨ l.2 ∈ active
    · rw [if_pos (hcond.mpr hc), if_pos hc]
      rfl
    · rw [if_neg (fun h => hc (hcond.mp h)), if_neg hc, ih]
      cases scanFirst active ls with
      | none => rfl
      | some p =>
        obtain ⟨g, rest⟩ := p
        rfl

end MapLemmas

section MapLemmas2

variable {α β : Type} [DecidableEq α] [DecidableEq β]

/-- `stitchIter` commutes with an injective relabelling of the points. -/
theorem stitchIter_map (f : α → β) (hf : Function.Injective f)
    (lines : List (α × α)) (polygon : List α) (active : Finset α) :
    stitchIter (lines.map (Prod.map f f)) (polygon.map f) (active.image f) =
      (stitchIter lines polygon active).map
        (fun s => (s.1.map (Prod.map f f), s.2.1.map f, s.2.2.image f)) := by
  cases hscan : scanFirst active lines with
  | none =>
    simp only [stitchIter, scanFirst_map f hf, hscan]
    rfl
  | some p =>
    obtain ⟨line, rest⟩ := p
    obtain ⟨a, b⟩ := line
    simp only [stitchIter, scanFirst_map f hf, hscan, Option.map_some', Prod.map_mk]
    have hab : ({f a, f b} : Finset β) = Finset.image f {a, b} := by
      rw [Finset.image_insert, Finset.image_singleton]
    have himg : ∀ s t : Finset α,
        (Finset.image f s) \ (Finset.image f t) = Finset.image f (s \ t) :=
      fun s t => (Finset.image_sdiff s t hf).symm
    rw [hab, himg, himg]
    by_cases hdiff : ({a, b} : Finset α) \ active = ∅
    · rw [if_pos (show Finset.image f ({a, b} \ active) = ∅ by
        rw [hdiff, Finset.image_empty]), if_pos hdiff]
      rfl
    · rw [if_neg (fun h => hdiff (Finset.image_eq_empty.mp h)), if_neg hdiff,
        Finset.card_image_of_injective _ hf]
      by_cases hcard : (({a, b} : Finset α) \ active).card = 1
      · rw [if_neg (not_not_intro hcard), if_neg (not_not_intro hcard)]
        have hnew : (if f a ∈ active.image f then f b else f a)
            = f (if a ∈ active then b else a) := by
          by_cases hmem : a ∈ active
          · rw [if_pos (hf.mem_finset_image.mpr hmem), if_pos hmem]
          · rw [if_neg (fun h => hmem (hf.mem_finset_image.mp h)), if_neg hmem]
        have hact2 : Finset.image f ((active \ {a, b}) ∪ ({a, b} \ active))
            = Finset.image f (active \ {a, b}) ∪ Finset.image f ({a, b} \ active) :=
          Finset.image_union _ _
        have hcond2 : (((polygon.map f).head? = some (f a)) ∨
              ((polygon.map f).head? = some (f b)))
            ↔ ((polygon.head? = some a) ∨ (polygon.head? = some b)) := by
          rw [head_map_eq f hf, head_map_eq f hf]
        rw [hnew, ← hact2]
        by_cases hhead : polygon.head? = some a ∨ polygon.head? = some b
        · rw [if_pos (hcond2.mpr hhead), if_pos hhead]
          rfl
        · rw [if_neg (fun h => hhead (hcond2.mp h)), if_neg hhead]
          simp [Except.map, List.map_append]
      · rw [if_pos hcard, if_pos hcard]
        rfl

end MapLemmas2

section MapLemmas3

variable {α β : Type} [DecidableEq α] [DecidableEq β]

/-- `stitchFuel` commutes with an injective relabelling of the points. -/
theorem stitchFuel_map (f : α → β) (hf : Function.Injective f) :
    ∀ (n : ℕ) (lines : List (α × α)) (polygon : List α) (active : Finset α),
      stitchFuel n (lines.map (Prod.map f f)) (polygon.map f) (active.image f) =
        (stitchFuel n lines polygon active).map (List.map f) := by
  intro n
  induction n with
  | zero =>
    intro lines polygon active
    cases lines with
    | nil => rfl
    | cons e es => rfl
  | succ n ih =>
    intro lines polygon active
    cases lines with
    | nil => rfl
    | cons e es =>
      rw [List.map_cons, stitchFuel, stitchFuel, ← List.map_cons, stitchIter_map f hf]
      cases stitchIter (e :: es) polygon active with
      | error err => rfl
      | ok s =>
        obtain ⟨rest, p2, a2⟩ := s
        exact ih rest p2 a2

/-- `_connect_outlines` commutes with an injective relabelling of the
points: stitching the relabelled edges gives the relabelled polygon. -/
theorem connect_outlines_map (f : α → β) (hf : Function.Injective f)
    (outlines : List (α × α)) :
    _connect_outlines (outlines.map (Prod.map f f)) =
      (_connect_outlines outlines).map (List.map f) := by
  rw [_connect_outlines, _connect_outlines, List.getLast?_map]
  cases outlines.getLast? with
  | none => rfl
  | some line =>
    obtain ⟨a, b⟩ := line
    simp only [Option.map_some', Prod.map_mk]
    have hseed : (if f a = f b then [f a] else [f a, f b])
        = (if a = b then [a] else [a, b]).map f := by
      by_cases hab : a = b
      · rw [if_pos hab, if_pos (congrArg f hab)]
        rfl
      · rw [if_neg hab, if_neg (fun h => hab (hf h))]
        rfl
    have hact : ({f a, f b} : Finset β) = ({a, b} : Finset α).image f := by
      rw [Finset.image_insert, Finset.image_singleton]
    have hdrop : (outlines.map (Prod.map f f)).dropLast
        = outlines.dropLast.map (Prod.map f f) :=
      (List.map_dropLast _ _).symm
    rw [hseed, hact, hdrop,
      stitchRun_eq_fuel outlines.dropLast.length _ _ _ (by rw [List.length_map]),
      stitchRun_eq_fuel outlines.dropLast.length _ _ _ (le_refl _),
      stitchFuel_map f hf]

end MapLemmas3

section HexagonTrace

/-- Concrete run of the stitcher on the labelled hexagon boundary: the loop
comes back rotated to start at corner 4. -/
theorem connect_hexLabelEdges :
    _connect_outlines hexLabelEdges = .ok [4, 5, 0, 1, 2, 3] := by
  rw [connect_outlines_eval]
  decide

/-- Stitching the six edges of a hexagon whose corners `p 0, …, p 5` are
pairwise distinct returns the loop rotated to start at corner 4. -/
theorem connect_outlines_hexagon {β : Type} [DecidableEq β] (p : Fin 6 → β)
    (hp : Function.Injective p) :
    _connect_outlines
        [(p 5, p 0), (p 0, p 1), (p 1, p 2), (p 2, p 3), (p 3, p 4), (p 4, p 5)] =
      .ok [p 4, p 5, p 0, p 1, p 2, p 3] := by
  have h := connect_outlines_map p hp hexLabelEdges
  rw [connect_hexLabelEdges] at h
  simpa [hexLabelEdges] using h

end HexagonTrace

section CornerValues

/-- Corner 0, at 30°. -/
theorem hexCornerVal_0 (o : ℝ × ℝ) (r : ℝ) :
    hexCornerVal o r 0 = (o.1 + r * (Real.sqrt 3 / 2), o.2 + r * (1 / 2)) := by
  rw [hexCornerVal]
  rw [show (((60 * 0 + 30 : ℤ) : ℝ)) = 30 by norm_num]
  rw [show radians 30 = Real.pi / 6 by rw [radians]; ring]
  rw [Real.cos_pi_div_six, Real.sin_pi_div_six]

/-- Corner 1, at 90°. -/
theorem hexCornerVal_1 (o : ℝ × ℝ) (r : ℝ) :
    hexCornerVal o r 1 = (o.1, o.2 + r) := by
  rw [hexCornerVal]
  rw [show (((60 * 1 + 30 : ℤ) : ℝ)) = 90 by norm_num]
  rw [show radians 90 = Real.pi / 2 by rw [radians]; ring]
  rw [Real.cos_pi_div_two, Real.sin_pi_div_two]
  simp only [Prod.mk.injEq]
  constructor <;> ring

/-- Corner 2, at 150°. -/
theorem hexCornerVal_2 (o : ℝ × ℝ) (r : ℝ) :
    hexCornerVal o r 2 = (o.1 - r * (Real.sqrt 3 / 2), o.2 + r * (1 / 2)) := by
  rw [hexCornerVal]
  rw [show (((60 * 2 + 30 : ℤ) : ℝ)) = 150 by norm_num]
  rw [show radians 150 = Real.pi - Real.pi / 6 by rw [radians]; ring]
  rw [Real.cos_pi_sub, Real.sin_pi_sub, Real.cos_pi_div_six, Real.sin_pi_div_six]
  simp only [Prod.mk.injEq]
  constructor <;> ring

/-- Corner 3, at 210°. -/
theorem hexCornerVal_3 (o : ℝ × ℝ) (r : ℝ) :
    hexCornerVal o r 3 = (o.1 - r * (Real.sqrt 3 / 2), o.2 - r * (1 / 2)) := by
  rw [hexCornerVal]
  rw [show (((60 * 3 + 30 : ℤ) : ℝ)) = 210 by norm_num]
  rw [show radians 210 = Real.pi + Real.pi / 6 by rw [radians]; ring]
  rw [Real.cos_add, Real.sin_add, Real.cos_pi, Real.sin_pi,
    Real.cos_pi_div_six, Real.sin_pi_div_six]
  simp only [Prod.mk.injEq]
  constructor <;> ring

/-- Corner 4, at 270°. -/
theorem hexCornerVal_4 (o : ℝ × ℝ) (r : ℝ) :
    hexCornerVal o r 4 = (o.1, o.2 - r) := by
  rw [hexCornerVal]
  rw [show (((60 * 4 + 30 : ℤ) : ℝ)) = 270 by norm_num]
  rw [show radians 270 = Real.pi + Real.pi / 2 by rw [radians]; ring]
  rw [Real.cos_add, Real.sin_add, Real.cos_pi, Real.sin_pi,
    Real.cos_pi_div_two, Real.sin_pi_div_two]
  simp only [Prod.mk.injEq]
  constructor <;> ring

/-- Corner 5, at 330°. -/
theorem hexCornerVal_5 (o : ℝ × ℝ) (r : ℝ) :
    hexCornerVal o r 5 = (o.1 + r * (Real.sqrt 3 / 2), o.2 - r * (1 / 2)) := by
  rw [hexCornerVal]
  rw [show (((60 * 5 + 30 : ℤ) : ℝ)) = 330 by norm_num]
  rw [show radians 330 = 2 * Real.pi - Real.pi / 6 by rw [radians]; ring]
  rw [Real.cos_sub, Real.sin_sub, Real.cos_two_pi, Real.sin_two_pi,
    Real.cos_pi_div_six, Real.sin_pi_div_six]
  simp only [Prod.mk.injEq]
  constructor <;> ring

/-- The origin tile is placed at the cartesian origin. -/
theorem tileOrigin_zero (r : ℝ) : tileOrigin (0, 0) r = (0, 0) := by
  rw [tileOrigin]
  norm_num

/-- Tile `(5, 0)` is placed at `(5·√3·r, 0)`. -/
theorem tileOrigin_five (r : ℝ) : tileOrigin (5, 0) r = (Real.sqrt 3 * r * 5, 0) := by
  rw [tileOrigin]
  norm_num

end CornerValues

section OutlineEval

/-- The edge computation of `_get_hexes_outline` succeeds on every valid
(tile, edge index) pair, giving the two hexagon corners of the edge. -/
theorem outline_mapM_ok (radius : ℝ) (hr : 0 < radius) :
    ∀ pairs : List ((ℤ × ℤ) × ℤ), (∀ p ∈ pairs, 0 ≤ p.2 ∧ p.2 ≤ 5) →
      (pairs.mapM (fun p => do
        let origin ← _tile_to_point p.1 radius
        _get_hex_edge origin radius p.2) :
          Except PyErr (List ((ℝ × ℝ) × (ℝ × ℝ)))) =
      .ok (pairs.map (fun p =>
        (hexCornerVal (tileOrigin p.1 radius) radius ((p.2 - 1) % 6),
         hexCornerVal (tileOrigin p.1 radius) radius p.2))) := by
  intro pairs
  induction pairs with
  | nil => intro _; rfl
  | cons p ps ih =>
    intro hv
    have hp := hv p (List.mem_cons_self p ps)
    have hedge : ∀ origin : ℝ × ℝ, _get_hex_edge origin radius p.2 =
        .ok (hexCornerVal origin radius ((p.2 - 1) % 6), hexCornerVal origin radius p.2) :=
      fun origin => _get_hex_edge_ok origin radius p.2 hr hp.1 hp.2
    simp only [List.mapM_cons, _tile_to_point_ok p.1 radius hr,
      ih (fun q hq => hv q (List.mem_cons_of_mem p hq)), hedge, List.map_cons]
    rfl

end OutlineEval

section SingleTileOutline

/-- `_get_hexes_outline` on a single isolated tile: all six neighbours are
absent, so exactly the tile's six hexagon edges are emitted, in edge-index
order, with both endpoints rounded. -/
theorem hexes_outline_single (t : ℤ × ℤ) (radius precision : ℝ) (hr : 0 < radius) :
    _get_hexes_outline [t] radius precision = .ok
      [(roundedCorner t radius precision 5, roundedCorner t radius precision 0),
       (roundedCorner t radius precision 0, roundedCorner t radius precision 1),
       (roundedCorner t radius precision 1, roundedCorner t radius precision 2),
       (roundedCorner t radius precision 2, roundedCorner t radius precision 3),
       (roundedCorner t radius precision 3, roundedCorner t radius precision 4),
       (roundedCorner t radius precision 4, roundedCorner t radius precision 5)] := by
  obtain ⟨a, b⟩ := t
  have hpairs : (([((a : ℤ), (b : ℤ))].dedup).flatMap (fun h =>
      (((_get_hex_neighbours h).enum).filter
        (fun p => p.2 ∉ [((a : ℤ), (b : ℤ))].dedup)).map (fun p => (h, (p.1 : ℤ))))) =
      [((a, b), 0), ((a, b), 1), ((a, b), 2), ((a, b), 3), ((a, b), 4), ((a, b), 5)] := by
    have hd : ([((a : ℤ), (b : ℤ))].dedup) = [(a, b)] := by simp
    rw [hd]
    simp [_get_hex_neighbours, List.enum, List.enumFrom, List.filter, Prod.ext_iff]
  have hvalid : ∀ q ∈ [(((a : ℤ), (b : ℤ)), (0 : ℤ)), ((a, b), 1), ((a, b), 2),
      ((a, b), 3), ((a, b), 4), ((a, b), 5)], 0 ≤ q.2 ∧ q.2 ≤ 5 := by
    intro q hq
    simp only [List.mem_cons, List.not_mem_nil, or_false] at hq
    rcases hq with h | h | h | h | h | h <;> subst h <;> exact ⟨by norm_num, by norm_num⟩
  simp only [_get_hexes_outline, hpairs, outline_mapM_ok radius hr _ hvalid, List.map_cons]
  rfl

end SingleTileOutline

section ConcreteRounds

/-- Package the floor bracket into an arbitrary-target rounding equation. -/
theorem round_to_eq_of_bounds (x : ℝ) (d : ℕ) (n : ℤ) (q : ℝ)
    (h1 : (n : ℝ) ≤ x * 10 ^ d + 1 / 2) (h2 : x * 10 ^ d + 1 / 2 < n + 1)
    (hq : (n : ℝ) / 10 ^ d = q) : round_to x d = q := by
  rw [round_to_int x d n h1 h2, hq]

/-- Evaluate a rounded corner from its exact coordinates and their roundings. -/
theorem roundedCorner_eq (t : ℤ × ℤ) (r prec : ℝ) (i : ℤ) (x y : ℝ) (q : ℝ × ℝ)
    (hc : hexCornerVal (tileOrigin t r) r i = (x, y))
    (h1 : round_to x (_round_digits prec) = q.1)
    (h2 : round_to y (_round_digits prec) = q.2) :
    roundedCorner t r prec i = q := by
  rw [roundedCorner, hc, roundPoint]
  exact Prod.ext h1 h2

/-- Two decimal digits for the display precision `1e-2`. -/
theorem digits_display : _round_digits (1 / 100) = 2 := by
  rw [show (1 / 100 : ℝ) = 1 / 10 ^ 2 by norm_num]
  exact _round_digits_pow 2

/-- Twelve decimal digits for the default precision `1e-12`. -/
theorem digits_default : _round_digits _outline_default_precision = 12 := by
  rw [_outline_default_precision]
  exact _round_digits_pow 12

/-- Rounded corner 0 of the unit hexagon at the origin tile, display digits. -/
theorem rc_unit_0 : roundedCorner (0, 0) 1 (1 / 100) 0 = (87 / 100, 1 / 2) := by
  refine roundedCorner_eq _ _ _ _ (Real.sqrt 3 / 2) (1 / 2) _ ?_ ?_ ?_
  · rw [tileOrigin_zero, hexCornerVal_0]
    simp only [Prod.mk.injEq]
    constructor <;> ring
  · rw [digits_display]
    exact round_to_eq_of_bounds _ 2 87 _ (by push_cast; nlinarith [sqrt3_bounds.1])
      (by push_cast; nlinarith [sqrt3_bounds.2]) (by norm_num)
  · rw [digits_display]
    exact round_to_eq_of_bounds _ 2 50 _ (by norm_num) (by norm_num) (by norm_num)

/-- Rounded corner 1 of the unit hexagon at the origin tile. -/
theorem rc_unit_1 : roundedCorner (0, 0) 1 (1 / 100) 1 = (0, 1) := by
  refine roundedCorner_eq _ _ _ _ 0 1 _ ?_ ?_ ?_
  · rw [tileOrigin_zero, hexCornerVal_1]
    simp only [Prod.mk.injEq]
    constructor <;> norm_num
  · rw [digits_display]
    exact round_to_eq_of_bounds _ 2 0 _ (by norm_num) (by norm_num) (by norm_num)
  · rw [digits_display]
    exact round_to_eq_of_bounds _ 2 100 _ (by norm_num) (by norm_num) (by norm_num)

/-- Rounded corner 2 of the unit hexagon at the origin tile. -/
theorem rc_unit_2 : roundedCorner (0, 0) 1 (1 / 100) 2 = (-(87 / 100), 1 / 2) := by
  refine roundedCorner_eq _ _ _ _ (-(Real.sqrt 3 / 2)) (1 / 2) _ ?_ ?_ ?_
  · rw [tileOrigin_zero, hexCornerVal_2]
    simp only [Prod.mk.injEq]
    constructor <;> ring
  · rw [digits_display]
    exact round_to_eq_of_bounds _ 2 (-87) _ (by push_cast; nlinarith [sqrt3_bounds.2])
      (by push_cast; nlinarith [sqrt3_bounds.1]) (by norm_num)
  · rw [digits_display]
    exact round_to_eq_of_bounds _ 2 50 _ (by norm_num) (by norm_num) (by norm_num)

/-- Rounded corner 3 of the unit hexagon at the origin tile. -/
theorem rc_unit_3 : roundedCorner (0, 0) 1 (1 / 100) 3 = (-(87 / 100), -(1 / 2)) := by
  refine roundedCorner_eq _ _ _ _ (-(Real.sqrt 3 / 2)) (-(1 / 2)) _ ?_ ?_ ?_
  · rw [tileOrigin_zero, hexCornerVal_3]
    simp only [Prod.mk.injEq]
    constructor <;> ring
  · rw [digits_display]
    exact round_to_eq_of_bounds _ 2 (-87) _ (by push_cast; nlinarith [sqrt3_bounds.2])
      (by push_cast; nlinarith [sqrt3_bounds.1]) (by norm_num)
  · rw [digits_display]
    exact round_to_eq_of_bounds _ 2 (-50) _ (by norm_num) (by norm_num) (by norm_num)

/-- Rounded corner 4 of the unit hexagon at the origin tile. -/
theorem rc_unit_4 : roundedCorner (0, 0) 1 (1 / 100) 4 = (0, -1) := by
  refine roundedCorner_eq _ _ _ _ 0 (-1) _ ?_ ?_ ?_
  · rw [tileOrigin_zero, hexCornerVal_4]
    simp only [Prod.mk.injEq]
    constructor <;> norm_num
  · rw [digits_display]
    exact round_to_eq_of_bounds _ 2 0 _ (by norm_num) (by norm_num) (by norm_num)
  · rw [digits_display]
    exact round_to_eq_of_bounds _ 2 (-100) _ (by norm_num) (by norm_num) (by norm_num)

/-- Rounded corner 5 of the unit hexagon at the origin tile. -/
theorem rc_unit_5 : roundedCorner (0, 0) 1 (1 / 100) 5 = (87 / 100, -(1 / 2)) := by
  refine roundedCorner_eq _ _ _ _ (Real.sqrt 3 / 2) (-(1 / 2)) _ ?_ ?_ ?_
  · rw [tileOrigin_zero, hexCornerVal_5]
    simp only [Prod.mk.injEq]
    constructor <;> ring
  · rw [digits_display]
    exact round_to_eq_of_bounds _ 2 87 _ (by push_cast; nlinarith [sqrt3_bounds.1])
      (by push_cast; nlinarith [sqrt3_bounds.2]) (by norm_num)
  · rw [digits_display]
    exact round_to_eq_of_bounds _ 2 (-50) _ (by norm_num) (by norm_num) (by norm_num)

end ConcreteRounds

section CollapseRounds

/-- At radius `1/1000` every corner coordinate of the origin tile rounds to
zero at display precision. -/
theorem rc_small_0 : roundedCorner (0, 0) (1 / 1000) (1 / 100) 0 = ((0 : ℝ), 0) := by
  refine roundedCorner_eq _ _ _ _ (Real.sqrt 3 / 2000) (1 / 2000) _ ?_ ?_ ?_
  · rw [tileOrigin_zero, hexCornerVal_0]
    simp only [Prod.mk.injEq]
    constructor <;> ring
  · rw [digits_display]
    exact round_to_eq_of_bounds _ 2 0 _ (by push_cast; nlinarith [sqrt3_bounds.1])
      (by push_cast; nlinarith [sqrt3_bounds.2]) (by norm_num)
  · rw [digits_display]
    exact round_to_eq_of_bounds _ 2 0 _ (by norm_num) (by norm_num) (by norm_num)

/-- Corner 1 of the collapsed tiny hexagon. -/
theorem rc_small_1 : roundedCorner (0, 0) (1 / 1000) (1 / 100) 1 = ((0 : ℝ), 0) := by
  refine roundedCorner_eq _ _ _ _ 0 (1 / 1000) _ ?_ ?_ ?_
  · rw [tileOrigin_zero, hexCornerVal_1]
    simp only [Prod.mk.injEq]
    constructor <;> norm_num
  · rw [digits_display]
    exact round_to_eq_of_bounds _ 2 0 _ (by norm_num) (by norm_num) (by norm_num)
  · rw [digits_display]
    exact round_to_eq_of_bounds _ 2 0 _ (by norm_num) (by norm_num) (by norm_num)

/-- Corner 2 of the collapsed tiny hexagon. -/
theorem rc_small_2 : roundedCorner (0, 0) (1 / 1000) (1 / 100) 2 = ((0 : ℝ), 0) := by
  refine roundedCorner_eq _ _ _ _ (-(Real.sqrt 3 / 2000)) (1 / 2000) _ ?_ ?_ ?_
  · rw [tileOrigin_zero, hexCornerVal_2]
    simp only [Prod.mk.injEq]
    constructor <;> ring
  · rw [digits_display]
    exact round_to_eq_of_bounds _ 2 0 _ (by push_cast; nlinarith [sqrt3_bounds.2])
      (by push_cast; nlinarith [sqrt3_bounds.1]) (by norm_num)
  · rw [digits_display]
    exact round_to_eq_of_bounds _ 2 0 _ (by norm_num) (by norm_num) (by norm_num)

/-- Corner 3 of the collapsed tiny hexagon. -/
theorem rc_small_3 : roundedCorner (0, 0) (1 / 1000) (1 / 100) 3 = ((0 : ℝ), 0) := by
  refine roundedCorner_eq _ _ _ _ (-(Real.sqrt 3 / 2000)) (-(1 / 2000)) _ ?_ ?_ ?_
  · rw [tileOrigin_zero, hexCornerVal_3]
    simp only [Prod.mk.injEq]
    constructor <;> ring
  · rw [digits_display]
    exact round_to_eq_of_bounds _ 2 0 _ (by push_cast; nlinarith [sqrt3_bounds.2])
      (by push_cast; nlinarith [sqrt3_bounds.1]) (by norm_num)
  · rw [digits_display]
    exact round_to_eq_of_bounds _ 2 0 _ (by norm_num) (by norm_num) (by norm_num)

/-- Corner 4 of the collapsed tiny hexagon. -/
theorem rc_small_4 : roundedCorner (0, 0) (1 / 1000) (1 / 100) 4 = ((0 : ℝ), 0) := by
  refine roundedCorner_eq _ _ _ _ 0 (-(1 / 1000)) _ ?_ ?_ ?_
  · rw [tileOrigin_zero, hexCornerVal_4]
    simp only [Prod.mk.injEq]
    constructor <;> norm_num
  · rw [digits_display]
    exact round_to_eq_of_bounds _ 2 0 _ (by norm_num) (by norm_num) (by norm_num)
  · rw [digits_display]
    exact round_to_eq_of_bounds _ 2 0 _ (by norm_num) (by norm_num) (by norm_num)

/-- Corner 5 of the collapsed tiny hexagon. -/
theorem rc_small_5 : roundedCorner (0, 0) (1 / 1000) (1 / 100) 5 = ((0 : ℝ), 0) := by
  refine roundedCorner_eq _ _ _ _ (Real.sqrt 3 / 2000) (-(1 / 2000)) _ ?_ ?_ ?_
  · rw [tileOrigin_zero, hexCornerVal_5]
    simp only [Prod.mk.injEq]
    constructor <;> ring
  · rw [digits_display]
    exact round_to_eq_of_bounds _ 2 0 _ (by push_cast; nlinarith [sqrt3_bounds.1])
      (by push_cast; nlinarith [sqrt3_bounds.2]) (by norm_num)
  · rw [digits_display]
    exact round_to_eq_of_bounds _ 2 0 _ (by norm_num) (by norm_num) (by norm_num)

end CollapseRounds

section DegenerateStitch

variable {α : Type} [DecidableEq α]

/-- Degenerate edges `(z, z)` are all skipped by the stitching loop: their
point set is contained in `active`, so each iteration only consumes the edge. -/
theorem stitchRun_const (z : α) :
    ∀ (lines : List (α × α)), (∀ e ∈ lines, e = (z, z)) →
      ∀ polygon, stitchRun lines polygon {z} = .ok polygon := by
  intro lines
  induction lines with
  | nil =>
    intro _ polygon
    exact stitchRun_nil polygon _
  | cons e es ih =>
    intro h polygon
    have he := h e (List.mem_cons_self e es)
    subst he
    have hscan : scanFirst ({z} : Finset α) ((z, z) :: es) = some ((z, z), es) := by
      rw [scanFirst, if_pos (Or.inl (Finset.mem_singleton_self z))]
    have hiter : stitchIter ((z, z) :: es) polygon {z} = .ok (es, polygon, {z}) := by
      simp only [stitchIter, hscan]
      rw [if_pos (show ({(z, z).1, (z, z).2} : Finset α) \ {z} = ∅ by simp)]
    rw [stitchRun_step _ _ _ _ _ _ (List.cons_ne_nil _ _) hiter]
    exact ih (fun e2 he2 => h e2 (List.mem_cons_of_mem _ he2)) polygon

/-- A non-empty list of identical degenerate edges stitches to the one-point
polygon `[z]`. -/
theorem connect_outlines_const (z : α) (outlines : List (α × α))
    (hne : outlines ≠ []) (hall : ∀ e ∈ outlines, e = (z, z)) :
    _connect_outlines outlines = .ok [z] := by
  obtain ⟨line, hlast⟩ := Option.ne_none_iff_exists'.mp
    (mt List.getLast?_eq_none_iff.mp hne)
  have hdecomp : outlines.dropLast ++ [line] = outlines :=
    List.dropLast_append_getLast? line (Option.mem_def.mpr hlast)
  have hlinemem : line ∈ outlines := by
    rw [← hdecomp]
    exact List.mem_append_right _ (List.mem_singleton_self line)
  have hline := hall line hlinemem
  subst hline
  simp only [_connect_outlines, hlast]
  rw [if_pos trivial, show ({z, z} : Finset α) = {z} by simp]
  exact stitchRun_const z outlines.dropLast
    (fun e he => hall e ((List.dropLast_sublist outlines).subset he)) [z]

end DegenerateStitch

section UnitHexagon

/-- Stitching six hexagon edges over six pairwise-distinct explicit corner
points: the loop comes back rotated to start at corner 4. -/
theorem connect_outlines_hexagon6 {β : Type} [DecidableEq β] (q0 q1 q2 q3 q4 q5 : β)
    (hnd : [q0, q1, q2, q3, q4, q5].Nodup) :
    _connect_outlines [(q5, q0), (q0, q1), (q1, q2), (q2, q3), (q3, q4), (q4, q5)] =
      .ok [q4, q5, q0, q1, q2, q3] :=
  connect_outlines_hexagon (fun i : Fin 6 => [q0, q1, q2, q3, q4, q5].get i)
    (List.nodup_iff_injective_get.mp hnd)

/-- The full unit-tile pipeline at display precision: six edges, stitched to
the rotated corner loop. -/
theorem unit_hexagon_polygon :
    (_get_hexes_outline [((0 : ℤ), 0)] 1 (1 / 100)).bind _connect_outlines =
      .ok [((0 : ℝ), -1), (87 / 100, -(1 / 2)), (87 / 100, 1 / 2), (0, 1),
        (-(87 / 100), 1 / 2), (-(87 / 100), -(1 / 2))] := by
  rw [hexes_outline_single (0, 0) 1 (1 / 100) one_pos, rc_unit_0, rc_unit_1, rc_unit_2,
    rc_unit_3, rc_unit_4, rc_unit_5]
  exact connect_outlines_hexagon6 ((87 : ℝ) / 100, (1 : ℝ) / 2) (0, 1) (-(87 / 100), 1 / 2)
    (-(87 / 100), -(1 / 2)) (0, -1) (87 / 100, -(1 / 2)) (by norm_num [Prod.ext_iff])

end UnitHexagon

section BasePipeline

/-- The per-base pipeline in terms of the bare edge-then-stitch composition. -/
theorem basePipeline_eq (radius : ℝ) (b : ℕ) (tiles : List (ℤ × ℤ)) :
    basePipeline radius (b, tiles) =
      ((_get_hexes_outline tiles radius (1 / 100)).bind _connect_outlines).map
        (fun poly => (b, poly)) := by
  rw [basePipeline]
  cases _get_hexes_outline tiles radius (1 / 100) with
  | error e => rfl
  | ok outlines =>
    cases _connect_outlines outlines with
    | error e => rfl
    | ok poly => rfl

/-- `get_base_outlines` is the per-base pipeline mapped over the groups. -/
theorem get_base_outlines_eq (records : List (ℕ × (ℤ × ℤ))) (radius : ℝ) :
    get_base_outlines records radius =
      (group_records records).mapM (basePipeline radius) := rfl

end BasePipeline

section SingleTileClaim

/-- C4 (amended): for every tile and positive radius, the six neighbour
offsets are right, upper-right, upper-left, left, lower-left, lower-right in
edge-index order, and the boundary extractor on the isolated tile emits
exactly the six hexagon edges; provided the six rounded corners are pairwise
distinct, stitching them returns the 6-point corner loop rotated to start at
corner 4.  (Without the distinctness proviso the outline can collapse, see
the counterexample.) -/
theorem single_tile_hexagon_outline (t : ℤ × ℤ) (r p : ℝ) (hr : 0 < r)
    (hnd : [roundedCorner t r p 0, roundedCorner t r p 1, roundedCorner t r p 2,
      roundedCorner t r p 3, roundedCorner t r p 4, roundedCorner t r p 5].Nodup) :
    _get_hex_neighbours t = [(t.1 + 1, t.2), (t.1, t.2 + 1), (t.1 - 1, t.2 + 1),
      (t.1 - 1, t.2), (t.1, t.2 - 1), (t.1 + 1, t.2 - 1)] ∧
    _get_hexes_outline [t] r p = .ok
      [(roundedCorner t r p 5, roundedCorner t r p 0),
       (roundedCorner t r p 0, roundedCorner t r p 1),
       (roundedCorner t r p 1, roundedCorner t r p 2),
       (roundedCorner t r p 2, roundedCorner t r p 3),
       (roundedCorner t r p 3, roundedCorner t r p 4),
       (roundedCorner t r p 4, roundedCorner t r p 5)] ∧
    (_get_hexes_outline [t] r p).bind _connect_outlines =
      .ok ([roundedCorner t r p 0, roundedCorner t r p 1, roundedCorner t r p 2,
        roundedCorner t r p 3, roundedCorner t r p 4,
        roundedCorner t r p 5].rotate 4) := by
  refine ⟨rfl, hexes_outline_single t r p hr, ?_⟩
  rw [hexes_outline_single t r p hr]
  exact connect_outlines_hexagon6 (roundedCorner t r p 0) (roundedCorner t r p 1)
    (roundedCorner t r p 2) (roundedCorner t r p 3) (roundedCorner t r p 4)
    (roundedCorner t r p 5) hnd

/-- C4 witness: the unit tile at the origin with display precision has six
pairwise-distinct rounded corners and stitches to the rotated corner loop. -/
theorem single_tile_hexagon_outline_witness :
    (0 : ℝ) < 1 ∧
    [roundedCorner (0, 0) 1 (1 / 100) 0, roundedCorner (0, 0) 1 (1 / 100) 1,
      roundedCorner (0, 0) 1 (1 / 100) 2, roundedCorner (0, 0) 1 (1 / 100) 3,
      roundedCorner (0, 0) 1 (1 / 100) 4, roundedCorner (0, 0) 1 (1 / 100) 5].Nodup ∧
    (_get_hexes_outline [((0 : ℤ), 0)] 1 (1 / 100)).bind _connect_outlines =
      .ok ([roundedCorner (0, 0) 1 (1 / 100) 0, roundedCorner (0, 0) 1 (1 / 100) 1,
        roundedCorner (0, 0) 1 (1 / 100) 2, roundedCorner (0, 0) 1 (1 / 100) 3,
        roundedCorner (0, 0) 1 (1 / 100) 4,
        roundedCorner (0, 0) 1 (1 / 100) 5].rotate 4) := by
  have hnd : [roundedCorner (0, 0) 1 (1 / 100) 0, roundedCorner (0, 0) 1 (1 / 100) 1,
      roundedCorner (0, 0) 1 (1 / 100) 2, roundedCorner (0, 0) 1 (1 / 100) 3,
      roundedCorner (0, 0) 1 (1 / 100) 4, roundedCorner (0, 0) 1 (1 / 100) 5].Nodup := by
    rw [rc_unit_0, rc_unit_1, rc_unit_2, rc_unit_3, rc_unit_4, rc_unit_5]
    norm_num [Prod.ext_iff]
  exact ⟨one_pos, hnd, (single_tile_hexagon_outline (0, 0) 1 (1 / 100) one_pos hnd).2.2⟩

/-- C4 counterexample: at radius `1/1000` the display rounding collapses all
six corners of the origin tile to `(0, 0)`, and the stitched outline of this
single isolated tile is the one-point sequence `[(0, 0)]`, not a 6-point
rotation/reflection of the hexagon's corners. -/
theorem single_tile_outline_collapse :
    get_base_outlines [(7, ((0 : ℤ), 0))] (1 / 1000) = .ok [(7, [((0 : ℝ), 0)])] ∧
    ¬([((0 : ℝ), 0)].length = 6) := by
  refine ⟨?_, by norm_num⟩
  have hpipe : (_get_hexes_outline [((0 : ℤ), 0)] (1 / 1000) (1 / 100)).bind
      _connect_outlines = .ok [((0 : ℝ), 0)] := by
    rw [hexes_outline_single (0, 0) (1 / 1000) (1 / 100) (by norm_num), rc_small_0,
      rc_small_1, rc_small_2, rc_small_3, rc_small_4, rc_small_5]
    show _connect_outlines
        [(((0:ℝ), (0:ℝ)), ((0:ℝ), (0:ℝ))), (((0:ℝ), (0:ℝ)), ((0:ℝ), (0:ℝ))),
         (((0:ℝ), (0:ℝ)), ((0:ℝ), (0:ℝ))), (((0:ℝ), (0:ℝ)), ((0:ℝ), (0:ℝ))),
         (((0:ℝ), (0:ℝ)), ((0:ℝ), (0:ℝ))), (((0:ℝ), (0:ℝ)), ((0:ℝ), (0:ℝ)))] =
      .ok [((0 : ℝ), 0)]
    refine connect_outlines_const ((0 : ℝ), 0) _ ?_ ?_
    · simp
    · intro e he
      simp at he
      exact he
  rw [show get_base_outlines [(7, ((0 : ℤ), 0))] (1 / 1000)
      = [((7 : ℕ), [((0 : ℤ), 0)])].mapM (basePipeline (1 / 1000)) from rfl]
  simp only [List.mapM_cons, List.mapM_nil, basePipeline_eq, hpipe]
  rfl

end SingleTileClaim

section DefaultPrecisionRounds

/-- Corner 0 of the unit hexagon at the default 12-digit precision. -/
theorem rc12_0 : roundedCorner (0, 0) 1 _outline_default_precision 0 =
    (866025403784 / 10 ^ 12, 1 / 2) := by
  refine roundedCorner_eq _ _ _ _ (Real.sqrt 3 / 2) (1 / 2) _ ?_ ?_ ?_
  · rw [tileOrigin_zero, hexCornerVal_0]
    simp only [Prod.mk.injEq]
    constructor <;> ring
  · rw [digits_default]
    exact round_to_eq_of_bounds _ 12 866025403784 _
      (by push_cast; nlinarith [sqrt3_bounds.1])
      (by push_cast; nlinarith [sqrt3_bounds.2]) (by norm_num)
  · rw [digits_default]
    exact round_to_eq_of_bounds _ 12 500000000000 _ (by norm_num) (by norm_num)
      (by norm_num)

/-- Corner 1 of the unit hexagon at the default 12-digit precision. -/
theorem rc12_1 : roundedCorner (0, 0) 1 _outline_default_precision 1 = (0, 1) := by
  refine roundedCorner_eq _ _ _ _ 0 1 _ ?_ ?_ ?_
  · rw [tileOrigin_zero, hexCornerVal_1]
    simp only [Prod.mk.injEq]
    constructor <;> norm_num
  · rw [digits_default]
    exact round_to_eq_of_bounds _ 12 0 _ (by norm_num) (by norm_num) (by norm_num)
  · rw [digits_default]
    exact round_to_eq_of_bounds _ 12 1000000000000 _ (by norm_num) (by norm_num)
      (by norm_num)

/-- Corner 2 of the unit hexagon at the default 12-digit precision. -/
theorem rc12_2 : roundedCorner (0, 0) 1 _outline_default_precision 2 =
    (-(866025403784 / 10 ^ 12), 1 / 2) := by
  refine roundedCorner_eq _ _ _ _ (-(Real.sqrt 3 / 2)) (1 / 2) _ ?_ ?_ ?_
  · rw [tileOrigin_zero, hexCornerVal_2]
    simp only [Prod.mk.injEq]
    constructor <;> ring
  · rw [digits_default]
    exact round_to_eq_of_bounds _ 12 (-866025403784) _
      (by push_cast; nlinarith [sqrt3_bounds.2])
      (by push_cast; nlinarith [sqrt3_bounds.1]) (by norm_num)
  · rw [digits_default]
    exact round_to_eq_of_bounds _ 12 500000000000 _ (by norm_num) (by norm_num)
      (by norm_num)

/-- Corner 3 of the unit hexagon at the default 12-digit precision. -/
theorem rc12_3 : roundedCorner (0, 0) 1 _outline_default_precision 3 =
    (-(866025403784 / 10 ^ 12), -(1 / 2)) := by
  refine roundedCorner_eq _ _ _ _ (-(Real.sqrt 3 / 2)) (-(1 / 2)) _ ?_ ?_ ?_
  · rw [tileOrigin_zero, hexCornerVal_3]
    simp only [Prod.mk.injEq]
    constructor <;> ring
  · rw [digits_default]
    exact round_to_eq_of_bounds _ 12 (-866025403784) _
      (by push_cast; nlinarith [sqrt3_bounds.2])
      (by push_cast; nlinarith [sqrt3_bounds.1]) (by norm_num)
  · rw [digits_default]
    exact round_to_eq_of_bounds _ 12 (-500000000000) _ (by norm_num) (by norm_num)
      (by norm_num)

/-- Corner 4 of the unit hexagon at the default 12-digit precision. -/
theorem rc12_4 : roundedCorner (0, 0) 1 _outline_default_precision 4 = (0, -1) := by
  refine roundedCorner_eq _ _ _ _ 0 (-1) _ ?_ ?_ ?_
  · rw [tileOrigin_zero, hexCornerVal_4]
    simp only [Prod.mk.injEq]
    constructor <;> norm_num
  · rw [digits_default]
    exact round_to_eq_of_bounds _ 12 0 _ (by norm_num) (by norm_num) (by norm_num)
  · rw [digits_default]
    exact round_to_eq_of_bounds _ 12 (-1000000000000) _ (by norm_num) (by norm_num)
      (by norm_num)

/-- Corner 5 of the unit hexagon at the default 12-digit precision. -/
theorem rc12_5 : roundedCorner (0, 0) 1 _outline_default_precision 5 =
    (866025403784 / 10 ^ 12, -(1 / 2)) := by
  refine roundedCorner_eq _ _ _ _ (Real.sqrt 3 / 2) (-(1 / 2)) _ ?_ ?_ ?_
  · rw [tileOrigin_zero, hexCornerVal_5]
    simp only [Prod.mk.injEq]
    constructor <;> ring
  · rw [digits_default]
    exact round_to_eq_of_bounds _ 12 866025403784 _
      (by push_cast; nlinarith [sqrt3_bounds.1])
      (by push_cast; nlinarith [sqrt3_bounds.2]) (by norm_num)
  · rw [digits_default]
    exact round_to_eq_of_bounds _ 12 (-500000000000) _ (by norm_num) (by norm_num)
      (by norm_num)

end DefaultPrecisionRounds

section PrecisionClaim

/-- C5 counterexample: the default precision of the boundary extractor is not
the display precision `1e-2`: it rounds to 12 decimal digits, and on the unit
hexagon the default-rounded corner `0.866025403784` differs from the 2-digit
display rounding `0.87`. -/
theorem default_precision_not_display :
    _outline_default_precision ≠ 1 / 100 ∧
    _round_digits _outline_default_precision = 12 ∧
    roundedCorner (0, 0) 1 _outline_default_precision 0 =
      (866025403784 / 10 ^ 12, 1 / 2) ∧
    roundedCorner (0, 0) 1 (1 / 100) 0 = (87 / 100, 1 / 2) ∧
    (866025403784 / 10 ^ 12 : ℝ) ≠ 87 / 100 := by
  refine ⟨?_, digits_default, rc12_0, rc_unit_0, by norm_num⟩
  rw [_outline_default_precision]
  norm_num

/-- C5 (amended): the rounding precision is a configurable parameter of the
boundary extractor whose default value is `1e-12` (12 decimal digits), not
the display precision `1e-2` (2 digits, passed explicitly by
`get_base_outlines`); invoked without an explicit precision on the unit tile,
the emitted edge endpoints carry 12-digit values. -/
theorem precision_default_1e12 :
    _outline_default_precision = 1 / 10 ^ 12 ∧
    _round_digits _outline_default_precision = 12 ∧
    _round_digits (1 / 100) = 2 ∧
    _get_hexes_outline [((0 : ℤ), 0)] 1 _outline_default_precision = .ok
      [((866025403784 / 10 ^ 12, -(1 / 2)), (866025403784 / 10 ^ 12, 1 / 2)),
       ((866025403784 / 10 ^ 12, 1 / 2), (0, 1)),
       ((0, 1), (-(866025403784 / 10 ^ 12), 1 / 2)),
       ((-(866025403784 / 10 ^ 12), 1 / 2), (-(866025403784 / 10 ^ 12), -(1 / 2))),
       ((-(866025403784 / 10 ^ 12), -(1 / 2)), (0, -1)),
       ((0, -1), (866025403784 / 10 ^ 12, -(1 / 2)))] := by
  refine ⟨rfl, digits_default, digits_display, ?_⟩
  rw [hexes_outline_single (0, 0) 1 _outline_default_precision one_pos, rc12_0, rc12_1,
    rc12_2, rc12_3, rc12_4, rc12_5]

end PrecisionClaim

section PairTiles

/-- `_get_hexes_outline` on the two isolated, non-adjacent tiles `(0,0)` and
`(5,0)`: six hexagon edges per tile, in member order. -/
theorem hexes_outline_pair :
    _get_hexes_outline [((0 : ℤ), 0), (5, 0)] 1 (1 / 100) = .ok
      [(roundedCorner (0, 0) 1 (1 / 100) 5, roundedCorner (0, 0) 1 (1 / 100) 0),
       (roundedCorner (0, 0) 1 (1 / 100) 0, roundedCorner (0, 0) 1 (1 / 100) 1),
       (roundedCorner (0, 0) 1 (1 / 100) 1, roundedCorner (0, 0) 1 (1 / 100) 2),
       (roundedCorner (0, 0) 1 (1 / 100) 2, roundedCorner (0, 0) 1 (1 / 100) 3),
       (roundedCorner (0, 0) 1 (1 / 100) 3, roundedCorner (0, 0) 1 (1 / 100) 4),
       (roundedCorner (0, 0) 1 (1 / 100) 4, roundedCorner (0, 0) 1 (1 / 100) 5),
       (roundedCorner (5, 0) 1 (1 / 100) 5, roundedCorner (5, 0) 1 (1 / 100) 0),
       (roundedCorner (5, 0) 1 (1 / 100) 0, roundedCorner (5, 0) 1 (1 / 100) 1),
       (roundedCorner (5, 0) 1 (1 / 100) 1, roundedCorner (5, 0) 1 (1 / 100) 2),
       (roundedCorner (5, 0) 1 (1 / 100) 2, roundedCorner (5, 0) 1 (1 / 100) 3),
       (roundedCorner (5, 0) 1 (1 / 100) 3, roundedCorner (5, 0) 1 (1 / 100) 4),
       (roundedCorner (5, 0) 1 (1 / 100) 4, roundedCorner (5, 0) 1 (1 / 100) 5)] := by
  have hpairs : (([((0 : ℤ), (0 : ℤ)), (5, 0)].dedup).flatMap (fun h =>
      (((_get_hex_neighbours h).enum).filter
        (fun p => p.2 ∉ [((0 : ℤ), (0 : ℤ)), (5, 0)].dedup)).map
          (fun p => (h, (p.1 : ℤ))))) =
      [(((0 : ℤ), (0 : ℤ)), (0 : ℤ)), ((0, 0), 1), ((0, 0), 2), ((0, 0), 3),
       ((0, 0), 4), ((0, 0), 5), ((5, 0), 0), ((5, 0), 1), ((5, 0), 2),
       ((5, 0), 3), ((5, 0), 4), ((5, 0), 5)] := by decide
  have hvalid : ∀ q ∈ [(((0 : ℤ), (0 : ℤ)), (0 : ℤ)), ((0, 0), 1), ((0, 0), 2),
      ((0, 0), 3), ((0, 0), 4), ((0, 0), 5), ((5, 0), 0), ((5, 0), 1), ((5, 0), 2),
      ((5, 0), 3), ((5, 0), 4), ((5, 0), 5)], 0 ≤ q.2 ∧ q.2 ≤ 5 := by decide
  simp only [_get_hexes_outline, hpairs, outline_mapM_ok 1 one_pos _ hvalid,
    List.map_cons]
  rfl

/-- Every rounded corner of a tile lies within rounding error of the closed
disc of the hexagon: its abscissa stays below any threshold one unit above
the tile origin plus the radius. -/
theorem roundedCorner_fst_lt (t : ℤ × ℤ) (r prec : ℝ) (i : ℤ) (c : ℝ) (hr : 0 ≤ r)
    (h : (tileOrigin t r).1 + r ≤ c - 1) : (roundedCorner t r prec i).1 < c := by
  rw [roundedCorner, roundPoint]
  apply round_to_lt_of
  show (tileOrigin t r).1 + r * Real.cos (radians ((60 * i + 30 : ℤ) : ℝ)) ≤ c - 1
  have hcos : Real.cos (radians ((60 * i + 30 : ℤ) : ℝ)) ≤ 1 := Real.cos_le_one _
  nlinarith

/-- Dually, the rounded abscissa stays above any threshold one unit below the
tile origin minus the radius. -/
theorem roundedCorner_fst_gt (t : ℤ × ℤ) (r prec : ℝ) (i : ℤ) (c : ℝ) (hr : 0 ≤ r)
    (h : c + 1 ≤ (tileOrigin t r).1 - r) : c < (roundedCorner t r prec i).1 := by
  rw [roundedCorner, roundPoint]
  apply lt_round_to_of
  show c + 1 ≤ (tileOrigin t r).1 + r * Real.cos (radians ((60 * i + 30 : ℤ) : ℝ))
  have hcos : -1 ≤ Real.cos (radians ((60 * i + 30 : ℤ) : ℝ)) := Real.neg_one_le_cos _
  nlinarith

/-- The stitcher fails with the `DisjointBoundary` error on the two separated
hexagons of tiles `(0,0)` and `(5,0)`. -/
theorem pair_tiles_disjoint_error :
    (_get_hexes_outline [((0 : ℤ), 0), (5, 0)] 1 (1 / 100)).bind _connect_outlines =
      .error .runtimeError := by
  have h00 : ∀ i : ℤ, (roundedCorner (0, 0) 1 (1 / 100) i).1 < 4 := by
    intro i
    apply roundedCorner_fst_lt _ _ _ _ _ (by norm_num)
    rw [tileOrigin_zero]
    norm_num
  have h50 : ∀ i : ℤ, (4 : ℝ) < (roundedCorner (5, 0) 1 (1 / 100) i).1 := by
    intro i
    apply roundedCorner_fst_gt _ _ _ _ _ (by norm_num)
    rw [tileOrigin_five]
    show (4 : ℝ) + 1 ≤ Real.sqrt 3 * 1 * 5 - 1
    nlinarith [sqrt3_bounds.1]
  have hconn : _connect_outlines
      [(roundedCorner (0, 0) 1 (1 / 100) 5, roundedCorner (0, 0) 1 (1 / 100) 0),
       (roundedCorner (0, 0) 1 (1 / 100) 0, roundedCorner (0, 0) 1 (1 / 100) 1),
       (roundedCorner (0, 0) 1 (1 / 100) 1, roundedCorner (0, 0) 1 (1 / 100) 2),
       (roundedCorner (0, 0) 1 (1 / 100) 2, roundedCorner (0, 0) 1 (1 / 100) 3),
       (roundedCorner (0, 0) 1 (1 / 100) 3, roundedCorner (0, 0) 1 (1 / 100) 4),
       (roundedCorner (0, 0) 1 (1 / 100) 4, roundedCorner (0, 0) 1 (1 / 100) 5),
       (roundedCorner (5, 0) 1 (1 / 100) 5, roundedCorner (5, 0) 1 (1 / 100) 0),
       (roundedCorner (5, 0) 1 (1 / 100) 0, roundedCorner (5, 0) 1 (1 / 100) 1),
       (roundedCorner (5, 0) 1 (1 / 100) 1, roundedCorner (5, 0) 1 (1 / 100) 2),
       (roundedCorner (5, 0) 1 (1 / 100) 2, roundedCorner (5, 0) 1 (1 / 100) 3),
       (roundedCorner (5, 0) 1 (1 / 100) 3, roundedCorner (5, 0) 1 (1 / 100) 4),
       (roundedCorner (5, 0) 1 (1 / 100) 4, roundedCorner (5, 0) 1 (1 / 100) 5)] =
      .error .runtimeError := by
    refine connect_outlines_split _ {q : ℝ × ℝ | q.1 < 4} ?_ ?_ ?_
    · intro e he
      simp only [List.mem_cons, List.not_mem_nil, or_false] at he
      rcases he with rfl | rfl | rfl | rfl | rfl | rfl | rfl | rfl | rfl | rfl | rfl | rfl
      · exact Or.inl ⟨h00 5, h00 0⟩
      · exact Or.inl ⟨h00 0, h00 1⟩
      · exact Or.inl ⟨h00 1, h00 2⟩
      · exact Or.inl ⟨h00 2, h00 3⟩
      · exact Or.inl ⟨h00 3, h00 4⟩
      · exact Or.inl ⟨h00 4, h00 5⟩
      · exact Or.inr ⟨(h50 5).asymm, (h50 0).asymm⟩
      · exact Or.inr ⟨(h50 0).asymm, (h50 1).asymm⟩
      · exact Or.inr ⟨(h50 1).asymm, (h50 2).asymm⟩
      · exact Or.inr ⟨(h50 2).asymm, (h50 3).asymm⟩
      · exact Or.inr ⟨(h50 3).asymm, (h50 4).asymm⟩
      · exact Or.inr ⟨(h50 4).asymm, (h50 5).asymm⟩
    · exact ⟨(roundedCorner (0, 0) 1 (1 / 100) 5, roundedCorner (0, 0) 1 (1 / 100) 0),
        List.mem_cons_self _ _, h00 5⟩
    · exact ⟨(roundedCorner (5, 0) 1 (1 / 100) 5, roundedCorner (5, 0) 1 (1 / 100) 0),
        by simp, (h50 5).asymm⟩
  rw [hexes_outline_pair]
  exact hconn

end PairTiles

section BatchClaim

/-- `mapM` in the `Except` monad cannot succeed when the function fails on
some list element: the loop raises at it (or earlier). -/
theorem mapM_error_of_mem {γ δ : Type} (f : γ → Except PyErr δ) :
    ∀ (l : List γ) (x : γ), x ∈ l → ∀ e, f x = .error e →
      ∃ e2, l.mapM f = .error e2 := by
  intro l
  induction l with
  | nil =>
    intro x hx
    simp at hx
  | cons a as ih =>
    intro x hx e he
    rw [List.mapM_cons]
    cases hfa : f a with
    | error e3 => exact ⟨e3, rfl⟩
    | ok d =>
      rcases List.mem_cons.mp hx with rfl | hx2
      · rw [hfa] at he
        cases he
      · obtain ⟨e2, h2⟩ := ih x hx2 e he
        exact ⟨e2, by rw [h2]; rfl⟩

/-- C1 (amended): an edge-extraction or stitching failure for any one base in
the batch makes the whole `get_base_outlines` call raise: the per-base loop
has no error handling, so no other base's outline is returned either — the
failure is a whole-batch failure, not a per-base one. -/
theorem base_failure_aborts_batch (records : List (ℕ × (ℤ × ℤ))) (radius : ℝ)
    (b : ℕ) (tiles : List (ℤ × ℤ)) (err : PyErr)
    (hmem : (b, tiles) ∈ group_records records)
    (herr : (_get_hexes_outline tiles radius (1 / 100)).bind _connect_outlines =
      .error err) :
    ∃ e, get_base_outlines records radius = .error e := by
  rw [get_base_outlines_eq]
  refine mapM_error_of_mem _ _ _ hmem err ?_
  rw [basePipeline_eq, herr]
  rfl

/-- C1 witness: in the batch with base 1 owning the two separated tiles
`(0,0)` and `(5,0)` and base 2 owning a valid single tile, base 1's
`DisjointBoundary` failure aborts the whole call. -/
theorem base_failure_aborts_batch_witness :
    ((1 : ℕ), [((0 : ℤ), 0), (5, 0)]) ∈
      group_records [(1, ((0 : ℤ), 0)), (1, (5, 0)), (2, (0, 0))] ∧
    (_get_hexes_outline [((0 : ℤ), 0), (5, 0)] 1 (1 / 100)).bind _connect_outlines =
      .error .runtimeError ∧
    ∃ e, get_base_outlines [(1, ((0 : ℤ), 0)), (1, (5, 0)), (2, (0, 0))] 1 =
      .error e := by
  have hmem : ((1 : ℕ), [((0 : ℤ), 0), (5, 0)]) ∈
      group_records [(1, ((0 : ℤ), 0)), (1, (5, 0)), (2, (0, 0))] := by decide
  exact ⟨hmem, pair_tiles_disjoint_error,
    base_failure_aborts_batch _ 1 1 _ .runtimeError hmem pair_tiles_disjoint_error⟩

/-- C1 counterexample: the batch pairing the failing base 1 (two separated
tiles) with the valid base 2 returns a whole-batch `DisjointBoundary` error —
base 2's outline is absent — although base 2 alone computes fine. -/
theorem batch_failure_not_per_base :
    get_base_outlines [(1, ((0 : ℤ), 0)), (1, (5, 0)), (2, (0, 0))] 1 =
      .error .runtimeError ∧
    get_base_outlines [(2, ((0 : ℤ), 0))] 1 =
      .ok [(2, [((0 : ℝ), -1), (87 / 100, -(1 / 2)), (87 / 100, 1 / 2), (0, 1),
        (-(87 / 100), 1 / 2), (-(87 / 100), -(1 / 2))])] := by
  constructor
  · rw [show get_base_outlines [(1, ((0 : ℤ), 0)), (1, (5, 0)), (2, (0, 0))] 1
        = [((1 : ℕ), [((0 : ℤ), 0), (5, 0)]), (2, [(0, 0)])].mapM (basePipeline 1)
        from rfl]
    simp only [List.mapM_cons, basePipeline_eq, pair_tiles_disjoint_error]
    rfl
  · rw [show get_base_outlines [(2, ((0 : ℤ), 0))] 1
        = [((2 : ℕ), [((0 : ℤ), 0)])].mapM (basePipeline 1) from rfl]
    simp only [List.mapM_cons, List.mapM_nil, basePipeline_eq, unit_hexagon_polygon]
    rfl

end BatchClaim
